import Mathlib

/-!
Alternating disks (`disks.hpp`).

A shallow embedding of the header `disks.hpp`: the row of disks `disk_state`, the
result wrapper `sorted_disks`, and the two sorters `sort_left_to_right` and
`sort_lawnmower`, followed by theorems about them.

Conventions of the embedding.

* The private vector `_colors` is a `List disk_color`.
* A call that ends in a failed `assert`, or that reads the vector outside its bounds,
  yields `none` (`Outcome.abort` for the lawnmower sorter).
* A `for` loop whose body changes neither its index nor its bound is a recursion on the
  number of iterations that are still to run; that number is computed from the bounds
  where the loop is entered.
* The `do … while` loop of `sort_lawnmower` is a recursion on a fuel argument, one unit
  per execution of the loop body; `Outcome.diverge` is returned when the fuel is used up.
* Machine integers: `size_t` has 64 bits, `int` and `unsigned` have 32 bits. Arithmetic in
  `size_t` is taken modulo `2^64` (`to_size_t`). A conversion to `int` keeps the value
  modulo `2^32` in the range of `int` (`to_int`), a conversion to `unsigned` keeps it
  modulo `2^32` (`to_unsigned`).
* Arithmetic on `int` values (`sizeOfVector - 2`, `sizeOfVector--`, `count++`, `i + 1`)
  is done on exact integers. C++ leaves an `int` operation undefined when its result is
  outside the range of `int`; that happens only for `sizeOfVector - 2`, `sizeOfVector - 1`
  and `sizeOfVector--` when `sizeOfVector` is one of the two least `int` values, where the
  exact bound is negative and the loop does not run, and for `count++` beyond `2^31 - 1`,
  where the exact count is reduced modulo `2^32` when it is returned as `unsigned`.
-/

/-- State of one disk, `enum disk_color { DISK_DARK, DISK_LIGHT }`. -/
inductive disk_color where
  | DISK_DARK
  | DISK_LIGHT
  deriving DecidableEq, Repr

open disk_color

/-- Integer value of an enumerator (`DISK_DARK` is 0, `DISK_LIGHT` is 1); the sorters
compare colours with `>` on these values. -/
def disk_color.val : disk_color → Nat
  | DISK_DARK => 0
  | DISK_LIGHT => 1

/-- The result of arithmetic in `size_t`: the value modulo `2^64`. -/
def to_size_t (n : Nat) : Nat :=
  n % 18446744073709551616

/-- The value an `int` receives from a conversion: congruent to `x` modulo `2^32` and
between `-2^31` and `2^31 - 1`. Here `r` is `x` modulo `2^32`, between 0 and `2^32 - 1`;
from `2^31` on it stands for the negative value `r - 2^32`. -/
def to_int (x : Int) : Int :=
  let r : Nat := (x % 4294967296).toNat
  if r < 2147483648 then (r : Int) else (r : Int) - 4294967296

/-- The value an `unsigned` receives from a conversion: `x` modulo `2^32`. -/
def to_unsigned (x : Int) : Nat :=
  (x % 4294967296).toNat

/-- Data structure for the state of one row of disks: the vector `_colors`. -/
structure disk_state where
  _colors : List disk_color
  deriving DecidableEq, Repr

/-- The loop of the constructor,
`for (size_t i = 1; i < _colors.size(); i += 2) { _colors[i] = DISK_LIGHT; }`.
The first argument is the number of iterations still to run, the second is `i`. -/
def disk_state.ctor_loop : Nat → Nat → List disk_color → List disk_color
  | 0, _, cs => cs
  | n + 1, i, cs => disk_state.ctor_loop n (i + 2) (cs.set i DISK_LIGHT)

/-- The constructor `disk_state(size_t light_count)`: a vector of `light_count * 2` dark
disks, the product taken in `size_t`, `assert(light_count > 0)`, then every odd index is
set to light. The loop visits the odd indices below the size, which are `size / 2` many. -/
def disk_state.construct (light_count : Nat) : Option disk_state :=
  let cs := List.replicate (to_size_t (light_count * 2)) DISK_DARK
  if 0 < light_count then
    some ⟨disk_state.ctor_loop (cs.length / 2) 1 cs⟩
  else
    none

/-- The three-iterator `std::equal(first1, last1, first2)`: walks the first range and
compares it with the second range position by position; it never looks at the length
of the second range, and reading past its end is undefined (`none`). -/
def std_equal : List disk_color → List disk_color → Option Bool
  | [], _ => some true
  | _ :: _, [] => none
  | x :: xs, y :: ys => if x = y then std_equal xs ys else some false

/-- The member `operator==`:
`std::equal(_colors.begin(), _colors.end(), rhs._colors.begin())`. -/
def disk_state.operator_eq (lhs rhs : disk_state) : Option Bool :=
  std_equal lhs._colors rhs._colors

/-- The member `total_count()`. -/
def disk_state.total_count (s : disk_state) : Nat :=
  s._colors.length

/-- The member `light_count()`. -/
def disk_state.light_count (s : disk_state) : Nat :=
  s.total_count / 2

/-- The member `dark_count()`. -/
def disk_state.dark_count (s : disk_state) : Nat :=
  s.light_count

/-- The member `is_index(i)`. -/
def disk_state.is_index (s : disk_state) (i : Nat) : Bool :=
  decide (i < s.total_count)

/-- The member `get(index)`: `assert(is_index(index)); return _colors[index];`. -/
def disk_state.get (s : disk_state) (index : Nat) : Option disk_color :=
  if s.is_index index then s._colors[index]? else none

/-- The member `swap(left_index)`: both indices are asserted to be in range, then the two
entries are exchanged. -/
def disk_state.swap (s : disk_state) (left_index : Nat) : Option disk_state :=
  if s.is_index left_index then
    let right_index := left_index + 1
    if s.is_index right_index then
      match s._colors[left_index]?, s._colors[right_index]? with
      | some a, some b => some ⟨(s._colors.set left_index b).set right_index a⟩
      | _, _ => none
    else
      none
  else
    none

/-- The tail of `is_alternating()` after its loop:
`if (_colors[0] == _colors[1]) return false; return true;`. -/
def disk_state.is_alternating_tail (cs : List disk_color) : Option Bool :=
  match cs[0]?, cs[1]? with
  | some a, some b => if a = b then some false else some true
  | _, _ => none

/-- The loop of `is_alternating()`,
`for (int i = 0; i < sizeOfVector - 2; i++) { if (_colors[i] != _colors[i + 2]) return false; }`,
followed by the rest of the function. First argument: iterations still to run; second: `i`. -/
def disk_state.is_alternating_loop (cs : List disk_color) : Nat → Nat → Option Bool
  | 0, _ => disk_state.is_alternating_tail cs
  | n + 1, i =>
    match cs[i]?, cs[i + 2]? with
    | some a, some b =>
      if a ≠ b then some false else disk_state.is_alternating_loop cs n (i + 1)
    | _, _ => none

/-- The member `is_alternating()`; `int sizeOfVector = total_count()` narrows the size to
`int`. The loop runs `sizeOfVector - 2` times, and not at all when that is negative. -/
def disk_state.is_alternating (s : disk_state) : Option Bool :=
  let sizeOfVector : Int := to_int s.total_count
  disk_state.is_alternating_loop s._colors (sizeOfVector - 2).toNat 0

/-- The second loop of `is_sorted()`,
`for (int i = halfOfSize + 1; i < sizeOfVector; i++)`, each entry must be light,
followed by `return sorted;`. Arguments: iterations still to run, `i`, `sorted`. -/
def disk_state.is_sorted_second (cs : List disk_color) : Nat → Nat → Bool → Option Bool
  | 0, _, sorted => some sorted
  | n + 1, i, _ =>
    match cs[i]? with
    | some c =>
      if c = DISK_LIGHT then disk_state.is_sorted_second cs n (i + 1) true else some false
    | none => none

/-- The first loop of `is_sorted()`, `for (int i = 0; i < halfOfSize; i++)`, each entry
must be dark, followed by the second loop. Arguments after the two sizes: iterations
still to run, `i`, `sorted`. -/
def disk_state.is_sorted_first (cs : List disk_color) (sizeOfVector halfOfSize : Int) :
    Nat → Nat → Bool → Option Bool
  | 0, _, sorted =>
    disk_state.is_sorted_second cs (sizeOfVector - (halfOfSize + 1)).toNat
      (halfOfSize + 1).toNat sorted
  | n + 1, i, _ =>
    match cs[i]? with
    | some c =>
      if c = DISK_DARK then
        disk_state.is_sorted_first cs sizeOfVector halfOfSize n (i + 1) true
      else
        some false
    | none => none

/-- The member `is_sorted()`; `int sizeOfVector = total_count()` narrows the size to `int`,
and `sizeOfVector / 2` is the `int` division of C++, which rounds towards zero. -/
def disk_state.is_sorted (s : disk_state) : Option Bool :=
  let sizeOfVector : Int := to_int s.total_count
  let halfOfSize : Int := sizeOfVector.tdiv 2
  disk_state.is_sorted_first s._colors sizeOfVector halfOfSize halfOfSize.toNat 0 false

/-- Data structure for the output of the alternating disks problem. -/
structure sorted_disks where
  _after : disk_state
  _swap_count : Nat
  deriving DecidableEq, Repr

/-- The member `after()`. -/
def sorted_disks.after (s : sorted_disks) : disk_state :=
  s._after

/-- Body of the inner loop of `sort_left_to_right`:
`if (copy.get(j) > copy.get(j + 1)) { copy.swap(j); count++; }`. -/
def ltr_body (j : Nat) (st : disk_state × Nat) : Option (disk_state × Nat) :=
  match st.1.get j, st.1.get (j + 1) with
  | some a, some b =>
    if a.val > b.val then
      match st.1.swap j with
      | some c => some (c, st.2 + 1)
      | none => none
    else
      some st
  | _, _ => none

/-- Inner loop of `sort_left_to_right`, `for (j = 0; j < sizeOfVector - 2; j++)`.
Arguments: iterations still to run, `j`, and the pair `(copy, count)`. -/
def ltr_inner : Nat → Nat → disk_state × Nat → Option (disk_state × Nat)
  | 0, _, st => some st
  | n + 1, j, st =>
    match ltr_body j st with
    | some st1 => ltr_inner n (j + 1) st1
    | none => none

/-- Outer loop of `sort_left_to_right`, `for (i = 0; i < sizeOfVector - 1; i++)`; its
index is not used by the body. First argument after the size: iterations still to run. -/
def ltr_outer (sizeOfVector : Int) : Nat → disk_state × Nat → Option (disk_state × Nat)
  | 0, st => some st
  | n + 1, st =>
    match ltr_inner (sizeOfVector - 2).toNat 0 st with
    | some st1 => ltr_outer sizeOfVector n st1
    | none => none

/-- Algorithm that sorts disks using the left-to-right algorithm.
`int sizeOfVector = copy.total_count()` narrows the size to `int`; `int count` holds the
number of `count++` made, and `sorted_disks(copy, count)` converts it to `unsigned`. -/
def sort_left_to_right (before : disk_state) : Option sorted_disks :=
  match before.is_alternating with
  | some true =>
    let copy := before
    let sizeOfVector : Int := to_int copy.total_count
    match ltr_outer sizeOfVector (sizeOfVector - 1).toNat (copy, 0) with
    | some (c, count) => some ⟨c, to_unsigned count⟩
    | none => none
  | _ => none

/-- What a run of the lawnmower sorter ends in: a returned value, a failed assertion, or
the fuel of the model running out. -/
inductive Outcome (α : Type) where
  | done (a : α)
  | abort
  | diverge
  deriving DecidableEq, Repr

/-- Body of both inner loops of `sort_lawnmower`:
`if (copy.get(i) > copy.get(i + 1)) { copy.swap(i); count++; check = true; }`. -/
def lawn_body (i : Nat) (st : disk_state × Nat × Bool) : Option (disk_state × Nat × Bool) :=
  match st.1.get i, st.1.get (i + 1) with
  | some a, some b =>
    if a.val > b.val then
      match st.1.swap i with
      | some c => some (c, st.2.1 + 1, true)
      | none => none
    else
      some st
  | _, _ => none

/-- Forward loop of `sort_lawnmower`,
`for (int i = startOfVector; i < sizeOfVector - 2; i++)`. Arguments: iterations still to
run, `i`, and the triple `(copy, count, check)`. -/
def lawn_forward : Nat → Nat → disk_state × Nat × Bool → Option (disk_state × Nat × Bool)
  | 0, _, st => some st
  | n + 1, i, st =>
    match lawn_body i st with
    | some st1 => lawn_forward n (i + 1) st1
    | none => none

/-- Backward loop of `sort_lawnmower`, `for (int i = sizeOfVector - 2; i >= 0; i--)`.
The first argument is `i + 1`, which is also the number of iterations still to run. -/
def lawn_backward : Nat → disk_state × Nat × Bool → Option (disk_state × Nat × Bool)
  | 0, st => some st
  | n + 1, st =>
    match lawn_body n st with
    | some st1 => lawn_backward n st1
    | none => none

/-- The `do … while (check)` loop of `sort_lawnmower`. `startOfVector` is only ever
incremented from 0 and is kept as a natural number; `sizeOfVector` is decremented and
is an integer. -/
def lawn_loop : Nat → disk_state → Nat → Int → Nat → Outcome (disk_state × Nat)
  | 0, _, _, _, _ => Outcome.diverge
  | fuel + 1, copy, count, sizeOfVector, startOfVector =>
    match lawn_forward (sizeOfVector - 2 - startOfVector).toNat startOfVector
        (copy, count, false) with
    | none => Outcome.abort
    | some (copy1, count1, check1) =>
      if !check1 then
        Outcome.done (copy1, count1)
      else
        let sizeOfVector1 := sizeOfVector - 1
        match lawn_backward (sizeOfVector1 - 1).toNat (copy1, count1, false) with
        | none => Outcome.abort
        | some (copy2, count2, check2) =>
          let startOfVector1 := startOfVector + 1
          if check2 then
            lawn_loop fuel copy2 count2 sizeOfVector1 startOfVector1
          else
            Outcome.done (copy2, count2)

/-- Algorithm that sorts disks using the lawnmower algorithm; `fuel` bounds the number
of times the body of the `do … while` loop may run.
`int sizeOfVector = copy.total_count()` narrows the size to `int`; `int count` holds the
number of `count++` made, and `sorted_disks(copy, count)` converts it to `unsigned`. -/
def sort_lawnmower (fuel : Nat) (before : disk_state) : Outcome sorted_disks :=
  match before.is_alternating with
  | some true =>
    let copy := before
    let sizeOfVector : Int := to_int copy.total_count
    match lawn_loop fuel copy 0 sizeOfVector 0 with
    | Outcome.done (c, count) => Outcome.done ⟨c, to_unsigned count⟩
    | Outcome.abort => Outcome.abort
    | Outcome.diverge => Outcome.diverge
  | _ => Outcome.abort

/-! ## Rows in closed form and pure passes (proof devices) -/

/-- The row `D L D L …` with `n` dark/light pairs. -/
def alt_dl : Nat → List disk_color
  | 0 => []
  | n + 1 => DISK_DARK :: DISK_LIGHT :: alt_dl n

/-- The row `L D L D …` with `n` light/dark pairs. -/
def alt_ld : Nat → List disk_color
  | 0 => []
  | n + 1 => DISK_LIGHT :: DISK_DARK :: alt_ld n

/-- The row `D^a (L D)^b L^c`: every state a sorter passes through on a constructed row
has this shape. -/
def mixed_row (a b c : Nat) : List disk_color :=
  List.replicate a DISK_DARK ++ (alt_ld b ++ List.replicate c DISK_LIGHT)

/-- One compare-and-swap at index `i` on a bare list, with the number of swaps made. -/
def pstep (i : Nat) (cs : List disk_color) : List disk_color × Nat :=
  match cs[i]?, cs[i + 1]? with
  | some a, some b => if a.val > b.val then ((cs.set i b).set (i + 1) a, 1) else (cs, 0)
  | _, _ => (cs, 0)

/-- Compare-and-swap at the `n` indices `i, i + 1, …` in ascending order. -/
def pfwd : Nat → Nat → List disk_color → List disk_color × Nat
  | 0, _, cs => (cs, 0)
  | n + 1, i, cs =>
    let r1 := pstep i cs
    let r2 := pfwd n (i + 1) r1.1
    (r2.1, r1.2 + r2.2)

/-- Compare-and-swap at the `n` indices `lo + n - 1, …, lo` in descending order. -/
def pbwd : Nat → Nat → List disk_color → List disk_color × Nat
  | 0, _, cs => (cs, 0)
  | n + 1, lo, cs =>
    let r1 := pstep (lo + n) cs
    let r2 := pbwd n lo r1.1
    (r2.1, r1.2 + r2.2)

/-- Number of inversions of a row: pairs of positions with a light disk somewhere to the
left of a dark disk. -/
def inversions : List disk_color → Nat
  | [] => 0
  | c :: cs => (if c = DISK_LIGHT then cs.count DISK_DARK else 0) + inversions cs

/-- The triangular number `0 + 1 + … + n`. -/
def tri : Nat → Nat
  | 0 => 0
  | n + 1 => tri n + (n + 1)

/-- A sequence of `swap(left_index)` calls applied in order; `none` as soon as one of them
fails its assertion. -/
def apply_swaps : List Nat → disk_state → Option disk_state
  | [], s => some s
  | i :: is, s =>
    match s.swap i with
    | some s1 => apply_swaps is s1
    | none => none

/-- Rows that a program can hold: built by the constructor, then changed by successful
calls of `swap`. -/
inductive Reachable : disk_state → Prop where
  | ctor (k : Nat) (r : disk_state) (h : disk_state.construct k = some r) : Reachable r
  | swap (r r1 : disk_state) (i : Nat) (hr : Reachable r) (h : r.swap i = some r1) :
      Reachable r1

/-- The colour that is not `c`. -/
def disk_color.other : disk_color → disk_color
  | DISK_DARK => DISK_LIGHT
  | DISK_LIGHT => DISK_DARK

/-- The row of `n` disks that starts with colour `c` and changes colour at every step. -/
def alt_list : disk_color → Nat → List disk_color
  | _, 0 => []
  | c, n + 1 => c :: alt_list c.other n

/-- One step of the scan that the specification describes for the left-to-right sorter:
"whenever the disk at position i is light and the disk at i+1 is dark, swap them and count
one swap". The state is the row and the swap counter. -/
def spec_scan_step (i : Nat) (st : List disk_color × Nat) : List disk_color × Nat :=
  match st.1[i]?, st.1[i + 1]? with
  | some DISK_LIGHT, some DISK_DARK =>
    ((st.1.set i DISK_DARK).set (i + 1) DISK_LIGHT, st.2 + 1)
  | _, _ => st

/-- One scan of the specification over the `n` left indices `i, i + 1, …`. -/
def spec_scan : Nat → Nat → List disk_color × Nat → List disk_color × Nat
  | 0, _, st => st
  | n + 1, i, st => spec_scan n (i + 1) (spec_scan_step i st)

/-- The scan of the specification repeated `n` times; each scan covers every left index
from 0 through `N - 2`, which are `N - 1` indices. -/
def spec_scans (N : Nat) : Nat → List disk_color × Nat → List disk_color × Nat
  | 0, st => st
  | n + 1, st => spec_scans N n (spec_scan (N - 1) 0 st)

/-- The bubble procedure as the specification words it: on a row of `N` disks, repeat
`N - 1` times a scan over every left index from 0 through `N - 2`; the result is the final
row and the number of swaps. -/
def spec_bubble (cs : List disk_color) : List disk_color × Nat :=
  spec_scans cs.length (cs.length - 1) (cs, 0)

/-! ## Lists -/

theorem getElem?_app_zero (pre : List disk_color) (x : disk_color) (rest : List disk_color)
    (i : Nat) (h : pre.length = i) : (pre ++ x :: rest)[i]? = some x := by
  subst h
  rw [List.getElem?_append_right (Nat.le_refl _)]
  simp

theorem getElem?_app_one (pre : List disk_color) (x y : disk_color) (rest : List disk_color)
    (i : Nat) (h : pre.length = i) : (pre ++ x :: y :: rest)[i + 1]? = some y := by
  subst h
  rw [List.getElem?_append_right (Nat.le_succ _)]
  simp

theorem set_app_zero (pre : List disk_color) (x z : disk_color) (rest : List disk_color)
    (i : Nat) (h : pre.length = i) : (pre ++ x :: rest).set i z = pre ++ z :: rest := by
  subst h
  induction pre with
  | nil => simp
  | cons p ps ih => simp [ih]

theorem set_app_one (pre : List disk_color) (x y z : disk_color) (rest : List disk_color)
    (i : Nat) (h : pre.length = i) :
    (pre ++ x :: y :: rest).set (i + 1) z = pre ++ x :: z :: rest := by
  subst h
  induction pre with
  | nil => simp
  | cons p ps ih => simp [ih]

@[simp] theorem alt_dl_length (n : Nat) : (alt_dl n).length = 2 * n := by
  induction n with
  | zero => rfl
  | succ n ih => simp [alt_dl, ih]; omega

@[simp] theorem alt_ld_length (n : Nat) : (alt_ld n).length = 2 * n := by
  induction n with
  | zero => rfl
  | succ n ih => simp [alt_ld, ih]; omega

@[simp] theorem mixed_row_length (a b c : Nat) : (mixed_row a b c).length = a + 2 * b + c := by
  simp [mixed_row]; omega

theorem alt_dl_snoc (n : Nat) : alt_dl (n + 1) = alt_dl n ++ [DISK_DARK, DISK_LIGHT] := by
  induction n with
  | zero => rfl
  | succ n ih =>
    calc alt_dl (n + 1 + 1) = DISK_DARK :: DISK_LIGHT :: alt_dl (n + 1) := rfl
      _ = DISK_DARK :: DISK_LIGHT :: (alt_dl n ++ [DISK_DARK, DISK_LIGHT]) := by rw [ih]
      _ = alt_dl (n + 1) ++ [DISK_DARK, DISK_LIGHT] := rfl

theorem alt_dl_append_dark (n : Nat) (rest : List disk_color) :
    alt_dl n ++ DISK_DARK :: rest = DISK_DARK :: (alt_ld n ++ rest) := by
  induction n with
  | zero => rfl
  | succ n ih => simp [alt_dl, alt_ld, ih]

theorem alt_ld_append_light (n : Nat) (rest : List disk_color) :
    alt_ld n ++ DISK_LIGHT :: rest = DISK_LIGHT :: (alt_dl n ++ rest) := by
  induction n with
  | zero => rfl
  | succ n ih => simp [alt_dl, alt_ld, ih]

theorem replicate_append_cons (a : Nat) (x : disk_color) (rest : List disk_color) :
    List.replicate a x ++ x :: rest = List.replicate (a + 1) x ++ rest := by
  induction a with
  | zero => rfl
  | succ a ih => simp [List.replicate_succ, ih]

/-- The row `D^a (L D)^(b+1) L^c` with its first light disk singled out. -/
theorem mixed_row_succ (a b c : Nat) :
    mixed_row a (b + 1) c
      = List.replicate a DISK_DARK
        ++ DISK_LIGHT :: (alt_dl b ++ DISK_DARK :: List.replicate c DISK_LIGHT) := by
  have h := alt_ld_append_light b (DISK_DARK :: List.replicate c DISK_LIGHT)
  have h2 : alt_ld (b + 1) = alt_ld b ++ [DISK_LIGHT, DISK_DARK] := by
    clear h
    induction b with
    | zero => rfl
    | succ n ih =>
      calc alt_ld (n + 1 + 1) = DISK_LIGHT :: DISK_DARK :: alt_ld (n + 1) := rfl
        _ = DISK_LIGHT :: DISK_DARK :: (alt_ld n ++ [DISK_LIGHT, DISK_DARK]) := by rw [ih]
        _ = alt_ld (n + 1) ++ [DISK_LIGHT, DISK_DARK] := rfl
  simp only [mixed_row, h2, List.append_assoc, List.cons_append, List.nil_append, h]

/-- The row that a pass leaves behind, `D^a (D L)^b D L L^c`, is `D^(a+1) (L D)^b L^(c+1)`. -/
theorem mixed_row_after (a b c : Nat) :
    List.replicate a DISK_DARK
        ++ (alt_dl b ++ DISK_DARK :: DISK_LIGHT :: List.replicate c DISK_LIGHT)
      = mixed_row (a + 1) b (c + 1) := by
  rw [alt_dl_append_dark, replicate_append_cons]
  rfl

theorem mixed_row_get_dark (a b c i : Nat) (h : i < a) :
    (mixed_row a b c)[i]? = some DISK_DARK := by
  simp [mixed_row, List.getElem?_append_left, h]

theorem mixed_row_get_light (a b c i : Nat) (h1 : a + 2 * b ≤ i) (h2 : i < a + 2 * b + c) :
    (mixed_row a b c)[i]? = some DISK_LIGHT := by
  have e : mixed_row a b c
      = (List.replicate a DISK_DARK ++ alt_ld b) ++ List.replicate c DISK_LIGHT := by
    simp [mixed_row]
  rw [e, List.getElem?_append_right (by simp; omega),
    List.getElem?_eq_getElem (by simp; omega)]
  simp

/-! ## Pure passes -/

theorem pstep_length (i : Nat) (cs : List disk_color) : (pstep i cs).1.length = cs.length := by
  unfold pstep
  split
  · split <;> simp
  · rfl

theorem pfwd_length (n i : Nat) (cs : List disk_color) : (pfwd n i cs).1.length = cs.length := by
  induction n generalizing i cs with
  | zero => rfl
  | succ n ih => simp [pfwd, ih, pstep_length]

theorem pbwd_length (n lo : Nat) (cs : List disk_color) :
    (pbwd n lo cs).1.length = cs.length := by
  induction n generalizing cs with
  | zero => rfl
  | succ n ih => simp [pbwd, ih, pstep_length]

theorem pstep_swap (pre rest : List disk_color) (i : Nat) (h : pre.length = i) :
    pstep i (pre ++ DISK_LIGHT :: DISK_DARK :: rest)
      = (pre ++ DISK_DARK :: DISK_LIGHT :: rest, 1) := by
  unfold pstep
  rw [getElem?_app_zero _ _ _ _ h, getElem?_app_one _ _ _ _ _ h]
  simp only [disk_color.val, gt_iff_lt, Nat.zero_lt_one, if_true]
  rw [set_app_zero _ _ _ _ _ h, set_app_one _ _ _ _ _ _ h]

theorem pstep_noop (i : Nat) (cs : List disk_color)
    (h : cs[i]? = some DISK_DARK ∨ cs[i + 1]? = some DISK_LIGHT) : pstep i cs = (cs, 0) := by
  unfold pstep
  split
  · next a b ha hb =>
    rcases h with h | h
    · rw [h] at ha
      cases ha
      cases b <;> simp [disk_color.val]
    · rw [h] at hb
      cases hb
      cases a <;> simp [disk_color.val]
  · rfl

theorem pfwd_noop (n i : Nat) (cs : List disk_color)
    (h : ∀ j, i ≤ j → j < i + n → cs[j]? = some DISK_DARK ∨ cs[j + 1]? = some DISK_LIGHT) :
    pfwd n i cs = (cs, 0) := by
  induction n generalizing i with
  | zero => rfl
  | succ n ih =>
    have h0 := pstep_noop i cs (h i (Nat.le_refl _) (by omega))
    have h1 := ih (i + 1) (fun j hj1 hj2 => h j (by omega) (by omega))
    simp [pfwd, h0, h1]

theorem pbwd_noop (n lo : Nat) (cs : List disk_color)
    (h : ∀ j, lo ≤ j → j < lo + n → cs[j]? = some DISK_DARK ∨ cs[j + 1]? = some DISK_LIGHT) :
    pbwd n lo cs = (cs, 0) := by
  induction n with
  | zero => rfl
  | succ n ih =>
    have h0 := pstep_noop (lo + n) cs (h (lo + n) (by omega) (by omega))
    have h1 := ih (fun j hj1 hj2 => h j hj1 (by omega))
    simp [pbwd, h0, h1]

theorem pfwd_add (m n i : Nat) (cs : List disk_color) :
    pfwd (m + n) i cs
      = ((pfwd n (i + m) (pfwd m i cs).1).1,
          (pfwd m i cs).2 + (pfwd n (i + m) (pfwd m i cs).1).2) := by
  induction m generalizing i cs with
  | zero => simp [pfwd]
  | succ m ih =>
    have e : m + 1 + n = (m + n) + 1 := by omega
    rw [e]
    simp only [pfwd]
    rw [ih]
    have e2 : i + 1 + m = i + (m + 1) := by omega
    rw [e2]
    simp [Nat.add_assoc]

theorem pbwd_add (m n lo : Nat) (cs : List disk_color) :
    pbwd (m + n) lo cs
      = ((pbwd m lo (pbwd n (lo + m) cs).1).1,
          (pbwd n (lo + m) cs).2 + (pbwd m lo (pbwd n (lo + m) cs).1).2) := by
  induction n generalizing cs with
  | zero => simp [pbwd]
  | succ n ih =>
    have e : m + (n + 1) = (m + n) + 1 := by omega
    rw [e]
    simp only [pbwd]
    rw [ih]
    have e2 : lo + (m + n) = lo + m + n := by omega
    rw [e2]
    simp [Nat.add_assoc]

/-- A forward pass that starts on a light disk carries it across `i` dark/light pairs,
swapping once per pair. -/
theorem pfwd_carry (i : Nat) (pre rest : List disk_color) (p : Nat) (h : pre.length = p) :
    pfwd (2 * i) p (pre ++ DISK_LIGHT :: (alt_dl i ++ rest))
      = (pre ++ (alt_dl i ++ DISK_LIGHT :: rest), i) := by
  induction i generalizing pre p with
  | zero => rfl
  | succ i ih =>
    have e : 2 * (i + 1) = 2 + 2 * i := by omega
    rw [e, pfwd_add]
    have s1 : pfwd 2 p (pre ++ DISK_LIGHT :: (alt_dl (i + 1) ++ rest))
        = ((pre ++ [DISK_DARK, DISK_LIGHT]) ++ DISK_LIGHT :: (alt_dl i ++ rest), 1) := by
      simp only [pfwd, alt_dl, List.cons_append]
      rw [pstep_swap pre _ p h]
      have hn : pstep (p + 1)
          (pre ++ DISK_DARK :: DISK_LIGHT :: DISK_LIGHT :: (alt_dl i ++ rest))
          = (pre ++ DISK_DARK :: DISK_LIGHT :: DISK_LIGHT :: (alt_dl i ++ rest), 0) := by
        apply pstep_noop
        right
        have := getElem?_app_one (pre ++ [DISK_DARK]) DISK_LIGHT DISK_LIGHT
          (alt_dl i ++ rest) (p + 1) (by simp [h])
        simpa using this
      simp only [hn]
      simp
    rw [s1]
    have := ih (pre ++ [DISK_DARK, DISK_LIGHT]) (p + 2) (by simp [h])
    simp only [this]
    simp [alt_dl]
    omega

/-- A backward pass that starts on a dark disk carries it across `i` dark/light pairs,
swapping once per pair. -/
theorem pbwd_carry (i : Nat) (pre rest : List disk_color) (p : Nat) (h : pre.length = p) :
    pbwd (2 * i) p (pre ++ (alt_dl i ++ DISK_DARK :: rest))
      = (pre ++ DISK_DARK :: (alt_dl i ++ rest), i) := by
  induction i generalizing rest with
  | zero => rfl
  | succ i ih =>
    have e : 2 * (i + 1) = 2 * i + 2 := by omega
    rw [e, pbwd_add]
    have s1 : pbwd 2 (p + 2 * i) (pre ++ (alt_dl (i + 1) ++ DISK_DARK :: rest))
        = (pre ++ (alt_dl i ++ DISK_DARK :: (DISK_DARK :: DISK_LIGHT :: rest)), 1) := by
      have hl : (pre ++ alt_dl i ++ [DISK_DARK]).length = p + 2 * i + 1 := by
        simp [h]; omega
      have hl0 : (pre ++ alt_dl i).length = p + 2 * i := by simp [h]
      simp only [pbwd]
      have e1 : pre ++ (alt_dl (i + 1) ++ DISK_DARK :: rest)
          = (pre ++ alt_dl i ++ [DISK_DARK]) ++ DISK_LIGHT :: DISK_DARK :: rest := by
        rw [alt_dl_snoc]; simp
      rw [e1, pstep_swap _ _ _ hl]
      have hn : pstep (p + 2 * i + 0)
          ((pre ++ alt_dl i ++ [DISK_DARK]) ++ DISK_DARK :: DISK_LIGHT :: rest)
          = ((pre ++ alt_dl i ++ [DISK_DARK]) ++ DISK_DARK :: DISK_LIGHT :: rest, 0) := by
        apply pstep_noop
        left
        have := getElem?_app_zero (pre ++ alt_dl i) DISK_DARK
          (DISK_DARK :: DISK_LIGHT :: rest) (p + 2 * i) hl0
        simpa using this
      simp only [hn]
      simp
    rw [s1]
    have := ih (DISK_DARK :: DISK_LIGHT :: rest)
    simp only [this]
    rw [alt_dl_snoc]
    simp
    omega

/-- A forward pass over a range that covers the mixed part of `D^a (L D)^(b+1) L^c` moves
one dark disk to the front block and one light disk to the back block, in `b + 1` swaps. -/
theorem pfwd_mixed (a b c lo n : Nat) (h1 : lo ≤ a) (h2 : a + 2 * b + 1 ≤ lo + n)
    (h3 : lo + n ≤ a + 2 * b + 1 + c) :
    pfwd n lo (mixed_row a (b + 1) c) = (mixed_row (a + 1) b (c + 1), b + 1) := by
  obtain ⟨m, hm⟩ : ∃ m, n = (a - lo) + (2 * b + (1 + m)) := ⟨lo + n - (a + 2 * b + 1), by omega⟩
  subst hm
  have s1 : pfwd (a - lo) lo (mixed_row a (b + 1) c) = (mixed_row a (b + 1) c, 0) :=
    pfwd_noop _ _ _ (fun j _ hj2 => Or.inl (mixed_row_get_dark _ _ _ _ (by omega)))
  have s2 : pfwd (2 * b) a (mixed_row a (b + 1) c)
      = ((List.replicate a DISK_DARK ++ alt_dl b)
          ++ DISK_LIGHT :: DISK_DARK :: List.replicate c DISK_LIGHT, b) := by
    rw [mixed_row_succ, pfwd_carry b _ _ a (by simp)]
    simp
  have s3 : pfwd 1 (a + 2 * b) ((List.replicate a DISK_DARK ++ alt_dl b)
          ++ DISK_LIGHT :: DISK_DARK :: List.replicate c DISK_LIGHT)
      = (mixed_row (a + 1) b (c + 1), 1) := by
    simp only [pfwd]
    rw [pstep_swap _ _ _ (by simp), List.append_assoc, mixed_row_after]
  have s4 : pfwd m (a + 2 * b + 1) (mixed_row (a + 1) b (c + 1))
      = (mixed_row (a + 1) b (c + 1), 0) :=
    pfwd_noop _ _ _ (fun j hj1 hj2 =>
      Or.inr (mixed_row_get_light _ _ _ _ (by omega) (by omega)))
  have e1 : lo + (a - lo) = a := by omega
  rw [pfwd_add, s1, e1, pfwd_add, s2, pfwd_add, s3, s4]
  simp

/-- A backward pass from an index at or above the mixed part of `D^a (L D)^(b+1) L^c` down
to index 0 has the same effect as the forward pass. -/
theorem pbwd_mixed (a b c n : Nat) (h2 : a + 2 * b + 1 ≤ n) (h3 : n ≤ a + 2 * b + 1 + c) :
    pbwd n 0 (mixed_row a (b + 1) c) = (mixed_row (a + 1) b (c + 1), b + 1) := by
  obtain ⟨m, hm⟩ : ∃ m, n = (a + (1 + 2 * b)) + m := ⟨n - (a + 2 * b + 1), by omega⟩
  subst hm
  have s1 : pbwd m (0 + (a + (1 + 2 * b))) (mixed_row a (b + 1) c)
      = (mixed_row a (b + 1) c, 0) :=
    pbwd_noop _ _ _ (fun j hj1 hj2 =>
      Or.inr (mixed_row_get_light _ _ _ _ (by omega) (by omega)))
  have s2 : pbwd (2 * b) (0 + a + 1) (mixed_row a (b + 1) c)
      = (List.replicate a DISK_DARK
          ++ DISK_LIGHT :: DISK_DARK :: (alt_dl b ++ List.replicate c DISK_LIGHT), b) := by
    have := pbwd_carry b (List.replicate a DISK_DARK ++ [DISK_LIGHT])
      (List.replicate c DISK_LIGHT) (0 + a + 1) (by simp)
    rw [mixed_row_succ]
    simpa using this
  have s3 : pbwd 1 (0 + a) (List.replicate a DISK_DARK
          ++ DISK_LIGHT :: DISK_DARK :: (alt_dl b ++ List.replicate c DISK_LIGHT))
      = (mixed_row (a + 1) b (c + 1), 1) := by
    simp only [pbwd]
    rw [pstep_swap _ _ _ (by simp)]
    have e : DISK_LIGHT :: (alt_dl b ++ List.replicate c DISK_LIGHT)
        = alt_ld b ++ List.replicate (c + 1) DISK_LIGHT := by
      rw [List.replicate_succ, alt_ld_append_light]
    rw [e, replicate_append_cons]
    rfl
  have s4 : pbwd a 0 (mixed_row (a + 1) b (c + 1)) = (mixed_row (a + 1) b (c + 1), 0) :=
    pbwd_noop _ _ _ (fun j _ hj2 => Or.inl (mixed_row_get_dark _ _ _ _ (by omega)))
  rw [pbwd_add, s1]
  dsimp only
  rw [pbwd_add, pbwd_add 1 (2 * b), s2]
  dsimp only
  rw [s3, s4]
  simp

/-- A forward pass over a row `D^a L^c` changes nothing. -/
theorem pfwd_sorted (a c lo n : Nat) (h : lo + n < a + c) :
    pfwd n lo (mixed_row a 0 c) = (mixed_row a 0 c, 0) := by
  apply pfwd_noop
  intro j hj1 hj2
  by_cases hja : j < a
  · exact Or.inl (mixed_row_get_dark _ _ _ _ hja)
  · exact Or.inr (mixed_row_get_light _ _ _ _ (by omega) (by omega))

/-- A backward pass over a row `D^a L^c` changes nothing. -/
theorem pbwd_sorted (a c lo n : Nat) (h : lo + n < a + c) :
    pbwd n lo (mixed_row a 0 c) = (mixed_row a 0 c, 0) := by
  apply pbwd_noop
  intro j hj1 hj2
  by_cases hja : j < a
  · exact Or.inl (mixed_row_get_dark _ _ _ _ hja)
  · exact Or.inr (mixed_row_get_light _ _ _ _ (by omega) (by omega))

/-! ## The loops of the sorters as pure passes -/

theorem ltr_body_eq (cs : List disk_color) (c j : Nat) (h : j + 1 < cs.length) :
    ltr_body j (⟨cs⟩, c) = some (⟨(pstep j cs).1⟩, c + (pstep j cs).2) := by
  have h0 : j < cs.length := by omega
  simp only [ltr_body, disk_state.get, disk_state.swap, disk_state.is_index,
    disk_state.total_count, pstep, h, h0, decide_True, if_true,
    List.getElem?_eq_getElem]
  split_ifs <;> simp

theorem lawn_body_eq (cs : List disk_color) (c j : Nat) (chk : Bool) (h : j + 1 < cs.length) :
    lawn_body j (⟨cs⟩, c, chk)
      = some (⟨(pstep j cs).1⟩, c + (pstep j cs).2, chk || decide (0 < (pstep j cs).2)) := by
  have h0 : j < cs.length := by omega
  simp only [lawn_body, disk_state.get, disk_state.swap, disk_state.is_index,
    disk_state.total_count, pstep, h, h0, decide_True, if_true,
    List.getElem?_eq_getElem]
  split_ifs <;> simp

theorem ltr_inner_eq (n i : Nat) (cs : List disk_color) (c : Nat) (h : i + n < cs.length) :
    ltr_inner n i (⟨cs⟩, c) = some (⟨(pfwd n i cs).1⟩, c + (pfwd n i cs).2) := by
  induction n generalizing i cs c with
  | zero => rfl
  | succ n ih =>
    simp only [ltr_inner, pfwd]
    rw [ltr_body_eq cs c i (by omega)]
    simp only []
    rw [ih (i + 1) _ _ (by rw [pstep_length]; omega), Nat.add_assoc]

theorem lawn_forward_eq (n i : Nat) (cs : List disk_color) (c : Nat) (chk : Bool)
    (h : i + n < cs.length) :
    lawn_forward n i (⟨cs⟩, c, chk)
      = some (⟨(pfwd n i cs).1⟩, c + (pfwd n i cs).2, chk || decide (0 < (pfwd n i cs).2)) := by
  induction n generalizing i cs c chk with
  | zero => simp [lawn_forward, pfwd]
  | succ n ih =>
    simp only [lawn_forward, pfwd]
    rw [lawn_body_eq cs c i chk (by omega)]
    simp only []
    rw [ih (i + 1) _ _ _ (by rw [pstep_length]; omega), Nat.add_assoc]
    simp only [Option.some.injEq, Prod.mk.injEq, true_and]
    cases chk <;> simp

theorem lawn_backward_eq (n : Nat) (cs : List disk_color) (c : Nat) (chk : Bool)
    (h : n < cs.length) :
    lawn_backward n (⟨cs⟩, c, chk)
      = some (⟨(pbwd n 0 cs).1⟩, c + (pbwd n 0 cs).2, chk || decide (0 < (pbwd n 0 cs).2)) := by
  induction n generalizing cs c chk with
  | zero => simp [lawn_backward, pbwd]
  | succ n ih =>
    simp only [lawn_backward, pbwd, Nat.zero_add]
    rw [lawn_body_eq cs c n chk (by omega)]
    simp only []
    rw [ih _ _ _ (by rw [pstep_length]; omega), Nat.add_assoc]
    simp only [Option.some.injEq, Prod.mk.injEq, true_and]
    cases chk <;> simp

/-! ## The constructor -/

theorem ctor_loop_eq (n : Nat) (pre : List disk_color) (i : Nat) (h : pre.length + 1 = i) :
    disk_state.ctor_loop n i (pre ++ List.replicate (2 * n) DISK_DARK) = pre ++ alt_dl n := by
  induction n generalizing pre i with
  | zero => simp [disk_state.ctor_loop, alt_dl]
  | succ n ih =>
    have e : 2 * (n + 1) = (2 * n + 1) + 1 := by omega
    subst h
    rw [e, List.replicate_succ, List.replicate_succ]
    simp only [disk_state.ctor_loop]
    rw [set_app_one _ _ _ _ _ _ rfl]
    have := ih (pre ++ [DISK_DARK, DISK_LIGHT]) (pre.length + 1 + 2) (by simp)
    simpa [alt_dl] using this

theorem to_int_eq (x : Int) :
    to_int x = (x + 2147483648) % 4294967296 - 2147483648 := by
  unfold to_int
  simp only []
  split_ifs <;> omega

theorem to_int_of_lt (n : Nat) (h : n < 2147483648) : to_int (n : Int) = (n : Int) := by
  have := to_int_eq (n : Int)
  omega

theorem to_int_le (n : Nat) (h : 0 ≤ to_int (n : Int)) : to_int (n : Int) ≤ (n : Int) := by
  have := to_int_eq (n : Int)
  omega

theorem to_int_lt (x : Int) : to_int x < 2147483648 := by
  have := to_int_eq x
  omega

theorem to_unsigned_of_lt (n : Nat) (h : n < 4294967296) : to_unsigned (n : Int) = n := by
  unfold to_unsigned
  omega

theorem to_unsigned_eq_mod (n : Nat) : to_unsigned (n : Int) = n % 4294967296 := by
  unfold to_unsigned
  omega

theorem to_size_t_double (k : Nat) : to_size_t (k * 2) = 2 * (to_size_t (k * 2) / 2) := by
  unfold to_size_t
  omega

theorem to_size_t_double_of_lt (k : Nat) (h : k < 9223372036854775808) :
    to_size_t (k * 2) / 2 = k := by
  unfold to_size_t
  omega

/-- The constructor builds the row `D L D L …`; its length is `light_count * 2` as
computed in `size_t`. -/
theorem construct_eq_wrapped (k : Nat) (h : 0 < k) :
    disk_state.construct k = some ⟨alt_dl (to_size_t (k * 2) / 2)⟩ := by
  have hc := ctor_loop_eq (to_size_t (k * 2) / 2) [] 1 rfl
  simp only [List.nil_append] at hc
  unfold disk_state.construct
  rw [to_size_t_double k]
  simp only [h, if_true, List.length_replicate]
  have e : 2 * (to_size_t (k * 2) / 2) / 2 = to_size_t (k * 2) / 2 := by omega
  rw [e, hc]

/-- When `light_count * 2` does not wrap, the constructor builds `light_count` pairs. -/
theorem construct_eq (k : Nat) (h : 0 < k) (hb : k < 9223372036854775808) :
    disk_state.construct k = some ⟨alt_dl k⟩ := by
  rw [construct_eq_wrapped k h, to_size_t_double_of_lt k hb]

theorem alt_dl_eq_mixed (b : Nat) : alt_dl (b + 1) = mixed_row 1 b 1 := by
  have := alt_ld_append_light b []
  simp only [List.append_nil] at this
  simp [mixed_row, alt_dl, this, alt_dl_append_dark]

theorem alt_dl_get (k j : Nat) (h : j < 2 * k) :
    (alt_dl k)[j]? = some (if j % 2 = 0 then DISK_DARK else DISK_LIGHT) := by
  induction k generalizing j with
  | zero => omega
  | succ k ih =>
    match j with
    | 0 => simp [alt_dl]
    | 1 => simp [alt_dl]
    | j + 2 =>
      have := ih j (by omega)
      simpa [alt_dl, Nat.add_mod] using this

/-! ## The predicates `is_alternating` and `is_sorted` -/

theorem is_alternating_loop_spec (cs : List disk_color) (n i : Nat)
    (h : i + n + 2 ≤ cs.length) :
    ∃ b, disk_state.is_alternating_loop cs n i = some b ∧
      (b = true ↔ (∀ j, i ≤ j → j < i + n → cs[j]? = cs[j + 2]?) ∧ cs[0]? ≠ cs[1]?) := by
  induction n generalizing i with
  | zero =>
    have h0 : 0 < cs.length := by omega
    have h1 : 1 < cs.length := by omega
    simp only [disk_state.is_alternating_loop, disk_state.is_alternating_tail,
      List.getElem?_eq_getElem h0, List.getElem?_eq_getElem h1]
    by_cases e : cs[0] = cs[1]
    · exact ⟨false, by simp [e], by simp [e]⟩
    · refine ⟨true, by simp [e], by simp [e]; intro j h1 h2; omega⟩
  | succ n ih =>
    have h0 : i < cs.length := by omega
    have h2 : i + 2 < cs.length := by omega
    simp only [disk_state.is_alternating_loop,
      List.getElem?_eq_getElem h0, List.getElem?_eq_getElem h2]
    by_cases e : cs[i] = cs[i + 2]
    · obtain ⟨b, hb, hiff⟩ := ih (i + 1) (by omega)
      refine ⟨b, by simp [e, hb], ?_⟩
      rw [hiff]
      constructor
      · rintro ⟨ha, hne⟩
        refine ⟨fun j hj1 hj2 => ?_, hne⟩
        by_cases hji : j = i
        · subst hji
          simp [List.getElem?_eq_getElem h0, List.getElem?_eq_getElem h2, e]
        · exact ha j (by omega) (by omega)
      · rintro ⟨ha, hne⟩
        exact ⟨fun j hj1 hj2 => ha j (by omega) (by omega), hne⟩
    · refine ⟨false, by simp [e], ?_⟩
      simp only [Bool.false_eq_true, false_iff, not_and]
      intro ha
      have := ha i (Nat.le_refl _) (by omega)
      simp [List.getElem?_eq_getElem h0, List.getElem?_eq_getElem h2, e] at this

/-- What `is_alternating()` computes on a row of at least two disks: every disk whose index
is more than 2 below the `int` size equals the one two places further on, and the first
two disks differ. -/
theorem is_alternating_spec_int (cs : List disk_color) (h : 2 ≤ cs.length) :
    ∃ b, disk_state.is_alternating ⟨cs⟩ = some b ∧
      (b = true ↔
        (∀ j : Nat, (j : Int) + 2 < to_int (cs.length : Int) → cs[j]? = cs[j + 2]?) ∧
          cs[0]? ≠ cs[1]?) := by
  have hle := to_int_le cs.length
  obtain ⟨b, hb, hiff⟩ := is_alternating_loop_spec cs (to_int (cs.length : Int) - 2).toNat 0
    (by omega)
  refine ⟨b, by simp only [disk_state.is_alternating, disk_state.total_count, hb], ?_⟩
  rw [hiff]
  constructor
  · rintro ⟨ha, hne⟩
    exact ⟨fun j hj => ha j (Nat.zero_le _) (by omega), hne⟩
  · rintro ⟨ha, hne⟩
    exact ⟨fun j _ hj => ha j (by omega), hne⟩

/-- The same on a row whose length fits in `int`. -/
theorem is_alternating_spec (cs : List disk_color) (h : 2 ≤ cs.length)
    (hb : cs.length < 2147483648) :
    ∃ b, disk_state.is_alternating ⟨cs⟩ = some b ∧
      (b = true ↔ (∀ j, j + 2 < cs.length → cs[j]? = cs[j + 2]?) ∧ cs[0]? ≠ cs[1]?) := by
  obtain ⟨b, hbs, hiff⟩ := is_alternating_spec_int cs h
  refine ⟨b, hbs, ?_⟩
  rw [hiff, to_int_of_lt _ hb]
  constructor
  · rintro ⟨ha, hne⟩
    exact ⟨fun j hj => ha j (by omega), hne⟩
  · rintro ⟨ha, hne⟩
    exact ⟨fun j hj => ha j (by omega), hne⟩

theorem is_sorted_second_spec (cs : List disk_color) (n i : Nat) (sorted : Bool)
    (h : i + n ≤ cs.length) :
    ∃ b, disk_state.is_sorted_second cs n i sorted = some b ∧
      (b = true ↔ (n = 0 → sorted = true) ∧
        ∀ j, i ≤ j → j < i + n → cs[j]? = some DISK_LIGHT) := by
  induction n generalizing i sorted with
  | zero =>
    refine ⟨sorted, rfl, ?_⟩
    simp
    intro _ j h1 h2
    omega
  | succ n ih =>
    have h0 : i < cs.length := by omega
    simp only [disk_state.is_sorted_second, List.getElem?_eq_getElem h0]
    by_cases e : cs[i] = DISK_LIGHT
    · obtain ⟨b, hb, hiff⟩ := ih (i + 1) true (by omega)
      refine ⟨b, by simp [e, hb], ?_⟩
      rw [hiff]
      constructor
      · rintro ⟨_, ha⟩
        refine ⟨by simp, fun j hj1 hj2 => ?_⟩
        by_cases hji : j = i
        · subst hji
          simp [List.getElem?_eq_getElem h0, e]
        · exact ha j (by omega) (by omega)
      · rintro ⟨_, ha⟩
        exact ⟨fun _ => rfl, fun j hj1 hj2 => ha j (by omega) (by omega)⟩
    · refine ⟨false, by simp [e], ?_⟩
      simp only [Bool.false_eq_true, false_iff, not_and]
      intro _ ha
      have := ha i (Nat.le_refl _) (by omega)
      simp [List.getElem?_eq_getElem h0, e] at this

theorem is_sorted_first_spec (cs : List disk_color) (m n i : Nat) (sorted : Bool)
    (hm1 : 1 ≤ m) (hm : m ≤ cs.length) (h : i + n ≤ cs.length) :
    ∃ b, disk_state.is_sorted_first cs (m : Int) ((m : Int) / 2) n i sorted = some b ∧
      (b = true ↔ ((n = 0 ∧ m - (m / 2 + 1) = 0) → sorted = true) ∧
        (∀ j, i ≤ j → j < i + n → cs[j]? = some DISK_DARK) ∧
        (∀ j, m / 2 + 1 ≤ j → j < m → cs[j]? = some DISK_LIGHT)) := by
  induction n generalizing i sorted with
  | zero =>
    have e1 : ((m : Int) - ((m : Int) / 2 + 1)).toNat = m - (m / 2 + 1) := by omega
    have e2 : ((m : Int) / 2 + 1).toNat = m / 2 + 1 := by omega
    obtain ⟨b, hb, hiff⟩ := is_sorted_second_spec cs (m - (m / 2 + 1))
      (m / 2 + 1) sorted (by omega)
    refine ⟨b, by simp only [disk_state.is_sorted_first, e1, e2, hb], ?_⟩
    rw [hiff]
    constructor
    · rintro ⟨hs, ha⟩
      exact ⟨fun hz => hs hz.2, fun j h1 h2 => by omega, fun j h1 h2 => ha j h1 (by omega)⟩
    · rintro ⟨hs, _, ha⟩
      exact ⟨fun hz => hs ⟨rfl, hz⟩, fun j h1 h2 => ha j h1 (by omega)⟩
  | succ n ih =>
    have h0 : i < cs.length := by omega
    simp only [disk_state.is_sorted_first, List.getElem?_eq_getElem h0]
    by_cases e : cs[i] = DISK_DARK
    · obtain ⟨b, hb, hiff⟩ := ih (i + 1) true (by omega)
      refine ⟨b, by simp [e, hb], ?_⟩
      rw [hiff]
      constructor
      · rintro ⟨_, ha, hl⟩
        refine ⟨by simp, fun j hj1 hj2 => ?_, hl⟩
        by_cases hji : j = i
        · subst hji
          simp [List.getElem?_eq_getElem h0, e]
        · exact ha j (by omega) (by omega)
      · rintro ⟨_, ha, hl⟩
        exact ⟨fun _ => rfl, fun j hj1 hj2 => ha j (by omega) (by omega), hl⟩
    · refine ⟨false, by simp [e], ?_⟩
      simp only [Bool.false_eq_true, false_iff, not_and]
      intro _ ha
      have := ha i (Nat.le_refl _) (by omega)
      simp [List.getElem?_eq_getElem h0, e] at this

theorem tdiv_two_of_nonneg (x : Int) (h : 0 ≤ x) : x.tdiv 2 = x / 2 :=
  Int.tdiv_eq_ediv h (by decide)

theorem tdiv_two_of_neg (x : Int) (h : x < 0) : x.tdiv 2 = -((-x) / 2) := by
  have h1 : (-(-x)).tdiv 2 = -((-x).tdiv 2) := Int.neg_tdiv (-x) 2
  rw [Int.neg_neg] at h1
  rw [h1, tdiv_two_of_nonneg (-x) (by omega)]

/-- When the `int` size is below 2, both loops of `is_sorted()` are empty and it returns its
initial `false`. -/
theorem is_sorted_of_small (cs : List disk_color) (h : to_int (cs.length : Int) < 2) :
    disk_state.is_sorted ⟨cs⟩ = some false := by
  have e1 : ((to_int (cs.length : Int)).tdiv 2).toNat = 0 := by
    by_cases hn : 0 ≤ to_int (cs.length : Int)
    · rw [tdiv_two_of_nonneg _ hn]
      omega
    · rw [tdiv_two_of_neg _ (by omega)]
      omega
  have e2 : (to_int (cs.length : Int) - ((to_int (cs.length : Int)).tdiv 2 + 1)).toNat
      = 0 := by
    by_cases hn : 0 ≤ to_int (cs.length : Int)
    · rw [tdiv_two_of_nonneg _ hn]
      omega
    · rw [tdiv_two_of_neg _ (by omega)]
      omega
  unfold disk_state.is_sorted
  simp only [disk_state.total_count]
  rw [e1]
  unfold disk_state.is_sorted_first
  rw [e2]
  rfl

/-- What `is_sorted()` computes when the `int` size `m` is at least 2: dark below index
`m / 2`, light from `m / 2 + 1` to `m - 1`; the disk at index `m / 2` is not looked at. -/
theorem is_sorted_spec_int (cs : List disk_color) (m : Nat)
    (hm : to_int (cs.length : Int) = (m : Int)) (h : 2 ≤ m) :
    ∃ b, disk_state.is_sorted ⟨cs⟩ = some b ∧
      (b = true ↔ (∀ j, j < m / 2 → cs[j]? = some DISK_DARK) ∧
        (∀ j, m / 2 + 1 ≤ j → j < m → cs[j]? = some DISK_LIGHT)) := by
  have hle := to_int_le cs.length (by omega)
  have e0 : (m : Int).tdiv 2 = (m : Int) / 2 := tdiv_two_of_nonneg _ (by omega)
  have e : ((m : Int) / 2).toNat = m / 2 := by omega
  obtain ⟨b, hb, hiff⟩ := is_sorted_first_spec cs m (m / 2) 0 false (by omega) (by omega)
    (by omega)
  refine ⟨b, by simp only [disk_state.is_sorted, disk_state.total_count, hm, e0, e, hb], ?_⟩
  rw [hiff]
  constructor
  · rintro ⟨_, ha, hl⟩
    exact ⟨fun j hj => ha j (Nat.zero_le _) (by omega), hl⟩
  · rintro ⟨ha, hl⟩
    exact ⟨fun hz => by omega, fun j _ hj => ha j (by omega), hl⟩

/-- The same on a row of at least two disks whose length fits in `int`. -/
theorem is_sorted_spec (cs : List disk_color) (h : 2 ≤ cs.length)
    (hb : cs.length < 2147483648) :
    ∃ b, disk_state.is_sorted ⟨cs⟩ = some b ∧
      (b = true ↔ (∀ j, j < cs.length / 2 → cs[j]? = some DISK_DARK) ∧
        (∀ j, cs.length / 2 + 1 ≤ j → j < cs.length → cs[j]? = some DISK_LIGHT)) :=
  is_sorted_spec_int cs cs.length (to_int_of_lt _ hb) h

/-! ## The sorters on a constructed row -/

theorem tri_eq (n : Nat) : tri n = n * (n + 1) / 2 := by
  induction n with
  | zero => rfl
  | succ n ih =>
    have e : (n + 1) * (n + 1 + 1) = n * (n + 1) + (n + 1) * 2 := by ring
    rw [tri, ih, e, Nat.add_mul_div_right _ _ (by norm_num : 0 < 2)]

theorem tri_pred (k : Nat) (h : 0 < k) : tri (k - 1) = k * (k - 1) / 2 := by
  obtain ⟨b, rfl⟩ : ∃ b, k = b + 1 := ⟨k - 1, by omega⟩
  rw [tri_eq, Nat.add_sub_cancel, Nat.mul_comm]

theorem is_alternating_alt_dl (k : Nat) (h : 0 < k) :
    disk_state.is_alternating ⟨alt_dl k⟩ = some true := by
  obtain ⟨b, hb, hiff⟩ := is_alternating_spec_int (alt_dl k) (by simp; omega)
  have : b = true := by
    rw [hiff]
    constructor
    · intro j hj
      have hle := to_int_le (alt_dl k).length (by omega)
      simp only [alt_dl_length] at hj hle
      rw [alt_dl_get k j (by omega), alt_dl_get k (j + 2) (by omega)]
      simp [Nat.add_mod]
    · rw [alt_dl_get k 0 (by omega), alt_dl_get k 1 (by omega)]
      simp
  rw [hb, this]

theorem sort_left_to_right_of_alt (r : disk_state) (h : r.is_alternating = some true) :
    sort_left_to_right r
      = match ltr_outer (to_int (r.total_count : Int))
            (to_int (r.total_count : Int) - 1).toNat (r, 0) with
        | some (c, count) => some ⟨c, to_unsigned count⟩
        | none => none := by
  unfold sort_left_to_right
  rw [h]

theorem sort_left_to_right_of_not_alt (r : disk_state) (h : r.is_alternating ≠ some true) :
    sort_left_to_right r = none := by
  unfold sort_left_to_right
  split
  · next he => exact absurd he h
  · rfl

theorem sort_lawnmower_of_alt (fuel : Nat) (r : disk_state)
    (h : r.is_alternating = some true) :
    sort_lawnmower fuel r
      = match lawn_loop fuel r 0 (to_int (r.total_count : Int)) 0 with
        | Outcome.done (c, count) => Outcome.done ⟨c, to_unsigned count⟩
        | Outcome.abort => Outcome.abort
        | Outcome.diverge => Outcome.diverge := by
  unfold sort_lawnmower
  rw [h]

theorem sort_lawnmower_of_not_alt (fuel : Nat) (r : disk_state)
    (h : r.is_alternating ≠ some true) : sort_lawnmower fuel r = Outcome.abort := by
  unfold sort_lawnmower
  split
  · next he => exact absurd he h
  · rfl

theorem lawn_loop_succ (fuel : Nat) (copy : disk_state) (count : Nat) (z : Int) (s : Nat) :
    lawn_loop (fuel + 1) copy count z s
      = match lawn_forward (z - 2 - s).toNat s (copy, count, false) with
        | none => Outcome.abort
        | some (copy1, count1, check1) =>
          if !check1 then
            Outcome.done (copy1, count1)
          else
            match lawn_backward (z - 1 - 1).toNat (copy1, count1, false) with
            | none => Outcome.abort
            | some (copy2, count2, check2) =>
              if check2 then
                lawn_loop fuel copy2 count2 (z - 1) (s + 1)
              else
                Outcome.done (copy2, count2) :=
  rfl

/-- With `sizeOfVector` at most 2 the loops of `sort_left_to_right` change nothing. -/
theorem ltr_outer_noop (z : Int) (n : Nat) (st : disk_state × Nat) (h : z ≤ 2) :
    ltr_outer z n st = some st := by
  have e : (z - 2).toNat = 0 := by omega
  induction n with
  | zero => rfl
  | succ n ih =>
    simp only [ltr_outer, e, ltr_inner]
    exact ih

/-- With `sizeOfVector` at most 2 the loop of `sort_lawnmower` ends in its first forward
pass and changes nothing. -/
theorem lawn_loop_noop (fuel : Nat) (r : disk_state) (cnt : Nat) (z : Int) (h : z ≤ 2) :
    lawn_loop (fuel + 1) r cnt z 0 = Outcome.done (r, cnt) := by
  have e : (z - 2 - ((0 : Nat) : Int)).toNat = 0 := by omega
  rw [lawn_loop_succ, e]
  rfl

/-- Both sorters on a row on which `is_alternating()` is true and whose `int` length is at
most 2: they return the row as it is, with 0 swaps. -/
theorem sorters_on_small (r : disk_state) (hz : to_int (r.total_count : Int) ≤ 2)
    (ha : r.is_alternating = some true) :
    sort_left_to_right r = some ⟨r, 0⟩ ∧
      ∀ fuel, 1 ≤ fuel → sort_lawnmower fuel r = Outcome.done ⟨r, 0⟩ := by
  constructor
  · rw [sort_left_to_right_of_alt _ ha, ltr_outer_noop _ _ _ hz]
    rfl
  · intro fuel hf
    obtain ⟨n, rfl⟩ : ∃ n, fuel = n + 1 := ⟨fuel - 1, by omega⟩
    rw [sort_lawnmower_of_alt _ _ ha, lawn_loop_noop _ _ _ _ hz]
    rfl

/-- The outer loop of `sort_left_to_right` on a row `D^a (L D)^b L^c` with `c ≥ 1`: after at
least `b` passes the row is `D^(a+b) L^(c+b)`, and `1 + 2 + … + b` swaps were made. -/
theorem ltr_outer_mixed (n a b c cnt N : Nat) (hN : N = a + 2 * b + c) (hc : 1 ≤ c)
    (hn : b ≤ n) :
    ltr_outer (N : Int) n (⟨mixed_row a b c⟩, cnt)
      = some (⟨mixed_row (a + b) 0 (c + b)⟩, cnt + tri b) := by
  have e : ((N : Int) - 2).toNat = N - 2 := by omega
  induction n generalizing a b c cnt with
  | zero =>
    obtain rfl : b = 0 := by omega
    rfl
  | succ n ih =>
    simp only [ltr_outer, e]
    rw [ltr_inner_eq _ _ _ _ (by simp; omega)]
    match b, hN, hn with
    | 0, hN, _ =>
      rw [pfwd_sorted a c 0 (N - 2) (by omega)]
      simp only []
      exact ih a 0 c (cnt + 0) hN hc (Nat.zero_le _)
    | b + 1, hN, hn =>
      rw [pfwd_mixed a b c 0 (N - 2) (Nat.zero_le _) (by omega) (by omega)]
      simp only []
      rw [ih (a + 1) b (c + 1) (cnt + (b + 1)) (by omega) (by omega) (by omega)]
      simp only [tri, Option.some.injEq, Prod.mk.injEq, disk_state.mk.injEq]
      constructor
      · congr 1 <;> omega
      · omega

/-- The left-to-right sorter on the constructed row of `k` lights, when the `2 * k` disks
fit in `int`. -/
theorem sort_left_to_right_alt_dl (k : Nat) (h : 0 < k) (hb : k < 1073741824) :
    sort_left_to_right ⟨alt_dl k⟩
      = some ⟨⟨mixed_row k 0 k⟩, k * (k - 1) / 2 % 4294967296⟩ := by
  obtain ⟨b, rfl⟩ : ∃ b, k = b + 1 := ⟨k - 1, by omega⟩
  have hlen : (alt_dl (b + 1)).length = 2 * b + 2 := by simp; omega
  have e0 : to_int (((2 * b + 2 : Nat)) : Int) = ((2 * b + 2 : Nat) : Int) :=
    to_int_of_lt _ (by omega)
  have e : (((2 * b + 2 : Nat) : Int) - 1).toNat = 2 * b + 1 := by omega
  rw [sort_left_to_right_of_alt _ (is_alternating_alt_dl _ h)]
  simp only [disk_state.total_count]
  rw [hlen, e0, e, alt_dl_eq_mixed,
    ltr_outer_mixed (2 * b + 1) 1 b 1 0 _ (by omega) (by omega) (by omega)]
  have ht := tri_pred (b + 1) h
  simp only [Nat.add_sub_cancel] at ht
  simp only [Nat.zero_add, Nat.add_sub_cancel, Nat.add_comm 1 b, ht, to_unsigned_eq_mod]

/-- The `do … while` loop of `sort_lawnmower` on a row `D^a (L D)^b L^c` with `c ≥ 1`, when
the window still covers the mixed part: it ends within `b / 2 + 1` rounds, with the row
`D^(a+b) L^(c+b)` and `1 + 2 + … + b` further swaps. -/
theorem lawn_loop_mixed (fuel a b c cnt s : Nat) (z : Int) (hs : s ≤ a) (hc : 1 ≤ c)
    (hz1 : ((a + 2 * b + 1 : Nat) : Int) ≤ z) (hz2 : z ≤ ((a + 2 * b + c : Nat) : Int))
    (hf : b < 2 * fuel) :
    lawn_loop fuel ⟨mixed_row a b c⟩ cnt z s
      = Outcome.done (⟨mixed_row (a + b) 0 (c + b)⟩, cnt + tri b) := by
  induction fuel generalizing a b c cnt s z with
  | zero => omega
  | succ fuel ih =>
    obtain ⟨zn, rfl⟩ : ∃ zn : Nat, z = (zn : Int) := ⟨z.toNat, by omega⟩
    have e1 : ((zn : Int) - 2 - (s : Int)).toNat = zn - 2 - s := by omega
    have e2 : ((zn : Int) - 1 - 1).toNat = zn - 2 := by omega
    simp only [lawn_loop, e1, e2]
    rw [lawn_forward_eq _ _ _ _ _ (by simp; omega)]
    match b, hz1, hz2, hf with
    | 0, hz1, hz2, _ =>
      rw [pfwd_sorted a c s (zn - 2 - s) (by omega)]
      simp [tri]
    | 1, hz1, hz2, _ =>
      rw [pfwd_mixed a 0 c s (zn - 2 - s) hs (by omega) (by omega)]
      simp only [Bool.false_or, Nat.zero_lt_succ, decide_True, Bool.not_true,
        Bool.false_eq_true, if_false]
      rw [lawn_backward_eq _ _ _ _ (by simp; omega),
        pbwd_sorted (a + 1) (c + 1) 0 (zn - 2) (by omega)]
      simp [tri]
    | b + 2, hz1, hz2, hf =>
      rw [pfwd_mixed a (b + 1) c s (zn - 2 - s) hs (by omega) (by omega)]
      simp only [Bool.false_or, Nat.zero_lt_succ, decide_True, Bool.not_true,
        Bool.false_eq_true, if_false]
      rw [lawn_backward_eq _ _ _ _ (by simp; omega),
        pbwd_mixed (a + 1) b (c + 1) (zn - 2) (by omega) (by omega)]
      simp only [Bool.false_or, Nat.zero_lt_succ, decide_True, if_true]
      rw [ih (a + 1 + 1) b (c + 1 + 1) _ (s + 1) _ (by omega) (by omega)
        (by push_cast; omega) (by push_cast; omega) (by omega)]
      simp only [tri, Outcome.done.injEq, Prod.mk.injEq, disk_state.mk.injEq]
      constructor
      · congr 1 <;> omega
      · omega

/-- The lawnmower sorter on the constructed row of `k` lights, given fuel for `k` rounds,
when the `2 * k` disks fit in `int`. -/
theorem sort_lawnmower_alt_dl (k fuel : Nat) (h : 0 < k) (hb : k < 1073741824)
    (hf : k ≤ fuel) :
    sort_lawnmower fuel ⟨alt_dl k⟩
      = Outcome.done ⟨⟨mixed_row k 0 k⟩, k * (k - 1) / 2 % 4294967296⟩ := by
  obtain ⟨b, rfl⟩ : ∃ b, k = b + 1 := ⟨k - 1, by omega⟩
  have hlen : (alt_dl (b + 1)).length = 2 * b + 2 := by simp; omega
  have e0 : to_int (((2 * b + 2 : Nat)) : Int) = ((2 * b + 2 : Nat) : Int) :=
    to_int_of_lt _ (by omega)
  rw [sort_lawnmower_of_alt _ _ (is_alternating_alt_dl _ h)]
  simp only [disk_state.total_count]
  rw [hlen, e0, alt_dl_eq_mixed, lawn_loop_mixed fuel 1 b 1 0 0 _ (by omega) (by omega)
    (by push_cast; omega) (by push_cast; omega) (by omega)]
  have ht := tri_pred (b + 1) h
  simp only [Nat.add_sub_cancel] at ht
  simp only [Nat.zero_add, Nat.add_sub_cancel, Nat.add_comm 1 b, ht, to_unsigned_eq_mod]

/-! ## The sorted row `D^k L^k` -/

theorem get_eq_getElem? (r : disk_state) (i : Nat) (h : i < r.total_count) :
    r.get i = r._colors[i]? := by
  simp [disk_state.get, disk_state.is_index, h]

theorem sorted_row_total_count (k : Nat) :
    (⟨mixed_row k 0 k⟩ : disk_state).total_count = 2 * k := by
  simp [disk_state.total_count]; omega

theorem sorted_row_get_dark (k i : Nat) (h : i < k) :
    (⟨mixed_row k 0 k⟩ : disk_state).get i = some DISK_DARK := by
  rw [get_eq_getElem? _ _ (by rw [sorted_row_total_count]; omega)]
  exact mixed_row_get_dark _ _ _ _ h

theorem sorted_row_get_light (k i : Nat) (h1 : k ≤ i) (h2 : i < 2 * k) :
    (⟨mixed_row k 0 k⟩ : disk_state).get i = some DISK_LIGHT := by
  rw [get_eq_getElem? _ _ (by rw [sorted_row_total_count]; omega)]
  exact mixed_row_get_light _ _ _ _ (by omega) (by omega)

theorem sorted_row_is_sorted (k : Nat) (h : 0 < k) (hb : k < 1073741824) :
    (⟨mixed_row k 0 k⟩ : disk_state).is_sorted = some true := by
  obtain ⟨b, hb, hiff⟩ := is_sorted_spec (mixed_row k 0 k) (by simp; omega) (by simp; omega)
  have hl : (mixed_row k 0 k).length / 2 = k := by simp; omega
  have : b = true := by
    rw [hiff, hl]
    constructor
    · intro j hj
      exact mixed_row_get_dark _ _ _ _ hj
    · intro j hj1 hj2
      simp only [mixed_row_length] at hj2
      exact mixed_row_get_light _ _ _ _ (by omega) (by omega)
  rw [hb, this]

/-- On a row of `2^31` disks the `int` size is `-2^31` and `is_sorted()` returns false,
whatever the colours. -/
theorem is_sorted_int_min (cs : List disk_color) (h : cs.length = 2147483648) :
    disk_state.is_sorted ⟨cs⟩ = some false := by
  apply is_sorted_of_small
  have := to_int_eq (cs.length : Int)
  omega

/-- The constructed row of `2^31 + 2` disks: its length does not fit in `int`, where it is
negative, so both sorters return the row as it is, with 0 swaps; index 1 holds a light disk
and `is_sorted()` is false. -/
theorem sorters_int_wrap (k : Nat) (hk : 2 * k = 2147483650) :
    disk_state.construct k = some ⟨alt_dl k⟩ ∧
      sort_left_to_right ⟨alt_dl k⟩ = some ⟨⟨alt_dl k⟩, 0⟩ ∧
      (∀ fuel, 1 ≤ fuel → sort_lawnmower fuel ⟨alt_dl k⟩ = Outcome.done ⟨⟨alt_dl k⟩, 0⟩) ∧
      (⟨alt_dl k⟩ : disk_state).get 1 = some DISK_LIGHT ∧
      (⟨alt_dl k⟩ : disk_state).is_sorted = some false := by
  have hlen : (alt_dl k).length = 2147483650 := by
    rw [alt_dl_length]
    exact hk
  have hz : to_int (((alt_dl k).length : Nat) : Int) < 2 := by
    rw [hlen]
    have := to_int_eq ((2147483650 : Nat) : Int)
    omega
  obtain ⟨h1, h2⟩ := sorters_on_small ⟨alt_dl k⟩
    (by simp only [disk_state.total_count]; omega) (is_alternating_alt_dl k (by omega))
  refine ⟨construct_eq k (by omega) (by omega), h1, h2, ?_, is_sorted_of_small _ hz⟩
  rw [get_eq_getElem? _ _ (by simp only [disk_state.total_count, hlen]; omega)]
  exact alt_dl_get k 1 (by omega)

/-- The constructed row for a light count of `2^30` has `2^31` disks. -/
theorem construct_int_min (k : Nat) (hk : 2 * k = 2147483648) :
    ∃ r, disk_state.construct k = some r ∧ r.total_count = 2147483648 :=
  ⟨⟨alt_dl k⟩, construct_eq k (by omega) (by omega), by
    simp only [disk_state.total_count, alt_dl_length]
    exact hk⟩

/-! ## Claims about the sorters on constructed rows -/

/-- C1 (counterexample): `disk_state(2^63 + 2)` is the row `D L D L`, because
`light_count * 2` wraps in `size_t`; `sort_left_to_right` returns `D D L L` on it, a row
of 4 disks and not of `2 * (2^63 + 2)`, with a light disk at index 2. `disk_state(2^30 + 1)`
has `2^31 + 2` disks, which does not fit the `int` that holds the size:
`sort_left_to_right` returns the row as it is, with a light disk at index 1, and
`is_sorted()` is false on it. `disk_state(2^30)` has `2^31` disks, and `is_sorted()` is
false on every row of `2^31` disks. -/
theorem sort_left_to_right_wrapped_row :
    (disk_state.construct 9223372036854775810
        = some ⟨[DISK_DARK, DISK_LIGHT, DISK_DARK, DISK_LIGHT]⟩ ∧
      sort_left_to_right ⟨[DISK_DARK, DISK_LIGHT, DISK_DARK, DISK_LIGHT]⟩
        = some ⟨⟨[DISK_DARK, DISK_DARK, DISK_LIGHT, DISK_LIGHT]⟩, 1⟩ ∧
      (⟨[DISK_DARK, DISK_DARK, DISK_LIGHT, DISK_LIGHT]⟩ : disk_state).total_count = 4 ∧
      (⟨[DISK_DARK, DISK_DARK, DISK_LIGHT, DISK_LIGHT]⟩ : disk_state).get 2
        = some DISK_LIGHT) ∧
    (disk_state.construct 1073741825 = some ⟨alt_dl 1073741825⟩ ∧
      sort_left_to_right ⟨alt_dl 1073741825⟩ = some ⟨⟨alt_dl 1073741825⟩, 0⟩ ∧
      (⟨alt_dl 1073741825⟩ : disk_state).get 1 = some DISK_LIGHT ∧
      (⟨alt_dl 1073741825⟩ : disk_state).is_sorted = some false) ∧
    (∃ r, disk_state.construct 1073741824 = some r ∧ r.total_count = 2147483648) ∧
    (∀ cs, List.length cs = 2147483648 → disk_state.is_sorted ⟨cs⟩ = some false) :=
  have h := sorters_int_wrap 1073741825 (by decide)
  ⟨⟨by decide, by decide, by decide, by decide⟩, ⟨h.1, h.2.1, h.2.2.2.1, h.2.2.2.2⟩,
    construct_int_min 1073741824 (by decide), is_sorted_int_min⟩

/-- C1 (amended): for every light count `k` with `1 ≤ k < 2^30`, so that the `2 * k` disks
fit in `int`, the constructor returns a row, `sort_left_to_right` returns a result on it,
and the final row has `2 * k` disks, dark at every index below `k`, light at every index
from `k` on, and `is_sorted()` returns true on it. -/
theorem sort_left_to_right_construct_sorted (k : Nat) (hk : 1 ≤ k) (hb : k < 1073741824) :
    ∃ r res, disk_state.construct k = some r ∧ sort_left_to_right r = some res ∧
      res.after.total_count = 2 * k ∧
      (∀ i, i < k → res.after.get i = some DISK_DARK) ∧
      (∀ i, k ≤ i → i < 2 * k → res.after.get i = some DISK_LIGHT) ∧
      res.after.is_sorted = some true :=
  ⟨⟨alt_dl k⟩, ⟨⟨mixed_row k 0 k⟩, k * (k - 1) / 2 % 4294967296⟩,
    construct_eq k hk (by omega), sort_left_to_right_alt_dl k hk hb,
    sorted_row_total_count k, sorted_row_get_dark k, sorted_row_get_light k,
    sorted_row_is_sorted k hk hb⟩

theorem sort_left_to_right_construct_sorted_witness :
    1 ≤ 3 ∧ 3 < 1073741824 ∧
      ∃ r res, disk_state.construct 3 = some r ∧ sort_left_to_right r = some res ∧
        res.after.total_count = 2 * 3 ∧
        (∀ i, i < 3 → res.after.get i = some DISK_DARK) ∧
        (∀ i, 3 ≤ i → i < 2 * 3 → res.after.get i = some DISK_LIGHT) ∧
        res.after.is_sorted = some true :=
  ⟨by decide, by decide, sort_left_to_right_construct_sorted 3 (by decide) (by decide)⟩

/-- C2 (counterexample): `disk_state(2^63 + 2)` is the row `D L D L`, because
`light_count * 2` wraps in `size_t`; `sort_lawnmower` returns `D D L L` on it, a row of 4
disks and not of `2 * (2^63 + 2)`, with a light disk at index 2. `disk_state(2^30 + 1)`
has `2^31 + 2` disks, which does not fit the `int` that holds the size: `sort_lawnmower`
returns the row as it is, with a light disk at index 1, and `is_sorted()` is false on it.
`disk_state(2^30)` has `2^31` disks, and `is_sorted()` is false on every row of `2^31`
disks. -/
theorem sort_lawnmower_wrapped_row :
    (disk_state.construct 9223372036854775810
        = some ⟨[DISK_DARK, DISK_LIGHT, DISK_DARK, DISK_LIGHT]⟩ ∧
      sort_lawnmower 2 ⟨[DISK_DARK, DISK_LIGHT, DISK_DARK, DISK_LIGHT]⟩
        = Outcome.done ⟨⟨[DISK_DARK, DISK_DARK, DISK_LIGHT, DISK_LIGHT]⟩, 1⟩ ∧
      (⟨[DISK_DARK, DISK_DARK, DISK_LIGHT, DISK_LIGHT]⟩ : disk_state).total_count = 4 ∧
      (⟨[DISK_DARK, DISK_DARK, DISK_LIGHT, DISK_LIGHT]⟩ : disk_state).get 2
        = some DISK_LIGHT) ∧
    (disk_state.construct 1073741825 = some ⟨alt_dl 1073741825⟩ ∧
      (∀ fuel, 1 ≤ fuel →
        sort_lawnmower fuel ⟨alt_dl 1073741825⟩ = Outcome.done ⟨⟨alt_dl 1073741825⟩, 0⟩) ∧
      (⟨alt_dl 1073741825⟩ : disk_state).get 1 = some DISK_LIGHT ∧
      (⟨alt_dl 1073741825⟩ : disk_state).is_sorted = some false) ∧
    (∃ r, disk_state.construct 1073741824 = some r ∧ r.total_count = 2147483648) ∧
    (∀ cs, List.length cs = 2147483648 → disk_state.is_sorted ⟨cs⟩ = some false) :=
  have h := sorters_int_wrap 1073741825 (by decide)
  ⟨⟨by decide, by decide, by decide, by decide⟩, ⟨h.1, h.2.2.1, h.2.2.2.1, h.2.2.2.2⟩,
    construct_int_min 1073741824 (by decide), is_sorted_int_min⟩

/-- C2 (amended): for every light count `k` with `1 ≤ k < 2^30`, so that the `2 * k` disks
fit in `int`, the constructor returns a row, `sort_lawnmower` returns a result on it
(whenever its loop may run `k` times or more), and the final row has `2 * k` disks, dark
at every index below `k`, light at every index from `k` on, and `is_sorted()` returns true
on it. -/
theorem sort_lawnmower_construct_sorted (k : Nat) (hk : 1 ≤ k) (hb : k < 1073741824) :
    ∃ r res, disk_state.construct k = some r ∧
      (∀ fuel, k ≤ fuel → sort_lawnmower fuel r = Outcome.done res) ∧
      res.after.total_count = 2 * k ∧
      (∀ i, i < k → res.after.get i = some DISK_DARK) ∧
      (∀ i, k ≤ i → i < 2 * k → res.after.get i = some DISK_LIGHT) ∧
      res.after.is_sorted = some true :=
  ⟨⟨alt_dl k⟩, ⟨⟨mixed_row k 0 k⟩, k * (k - 1) / 2 % 4294967296⟩,
    construct_eq k hk (by omega), fun fuel hf => sort_lawnmower_alt_dl k fuel hk hb hf,
    sorted_row_total_count k, sorted_row_get_dark k, sorted_row_get_light k,
    sorted_row_is_sorted k hk hb⟩

theorem sort_lawnmower_construct_sorted_witness :
    1 ≤ 3 ∧ 3 < 1073741824 ∧
      ∃ r res, disk_state.construct 3 = some r ∧
        (∀ fuel, 3 ≤ fuel → sort_lawnmower fuel r = Outcome.done res) ∧
        res.after.total_count = 2 * 3 ∧
        (∀ i, i < 3 → res.after.get i = some DISK_DARK) ∧
        (∀ i, 3 ≤ i → i < 2 * 3 → res.after.get i = some DISK_LIGHT) ∧
        res.after.is_sorted = some true :=
  ⟨by decide, by decide, sort_lawnmower_construct_sorted 3 (by decide) (by decide)⟩

theorem list_split_at (cs : List disk_color) (i : Nat) (h : i + 1 < cs.length) :
    cs.take i ++ cs[i] :: cs[i + 1] :: cs.drop (i + 2) = cs := by
  have h1 : cs.drop i = cs[i] :: cs.drop (i + 1) := List.drop_eq_getElem_cons (by omega)
  have h2 : cs.drop (i + 1) = cs[i + 1] :: cs.drop (i + 2) := List.drop_eq_getElem_cons h
  rw [← h2, ← h1, List.take_append_drop]

/-- A successful `swap(i)` exchanges two neighbours and leaves the rest of the row alone. -/
theorem swap_decomp (s s1 : disk_state) (i : Nat) (h : s.swap i = some s1) :
    ∃ pre x y rest, s._colors = pre ++ x :: y :: rest ∧ pre.length = i ∧
      s1._colors = pre ++ y :: x :: rest := by
  obtain ⟨cs⟩ := s
  by_cases h1 : i + 1 < cs.length
  · have h0 : i < cs.length := by omega
    obtain ⟨pre, x, y, rest, hs, hp⟩ :
        ∃ pre x y rest, cs = pre ++ x :: y :: rest ∧ pre.length = i :=
      ⟨_, _, _, _, (list_split_at cs i h1).symm, by simp; omega⟩
    subst hs
    refine ⟨pre, x, y, rest, rfl, hp, ?_⟩
    simp only [disk_state.swap, disk_state.is_index, disk_state.total_count, h0, h1,
      decide_True, if_true] at h
    rw [getElem?_app_zero _ _ _ _ hp, getElem?_app_one _ _ _ _ _ hp] at h
    simp only [Option.some.injEq] at h
    rw [← h, set_app_zero _ _ _ _ _ hp, set_app_one _ _ _ _ _ _ hp]
  · simp [disk_state.swap, disk_state.is_index, disk_state.total_count, h1] at h

theorem swap_length (s s1 : disk_state) (i : Nat) (h : s.swap i = some s1) :
    s1._colors.length = s._colors.length := by
  obtain ⟨pre, x, y, rest, h1, _, h2⟩ := swap_decomp s s1 i h
  simp [h1, h2]

theorem swap_count_dark (s s1 : disk_state) (i : Nat) (h : s.swap i = some s1) :
    s1._colors.count DISK_DARK = s._colors.count DISK_DARK := by
  obtain ⟨pre, x, y, rest, h1, _, h2⟩ := swap_decomp s s1 i h
  simp only [h1, h2, List.count_append, List.count_cons]
  omega

theorem alt_dl_count_dark (k : Nat) : (alt_dl k).count DISK_DARK = k := by
  induction k with
  | zero => rfl
  | succ k ih => simp [alt_dl, ih]

/-- Every reachable row has `2 * k` disks for some `k`, and exactly `k` of them are dark. -/
theorem reachable_balanced (r : disk_state) (h : Reachable r) :
    ∃ k, r._colors.length = 2 * k ∧ r._colors.count DISK_DARK = k := by
  induction h with
  | ctor k r h =>
    by_cases hk : 0 < k
    · rw [construct_eq_wrapped k hk] at h
      cases h
      exact ⟨_, alt_dl_length _, alt_dl_count_dark _⟩
    · simp [disk_state.construct, hk] at h
  | swap r r1 i _ h ih =>
    obtain ⟨k, hl, hc⟩ := ih
    exact ⟨k, by rw [swap_length r r1 i h, hl], by rw [swap_count_dark r r1 i h, hc]⟩

theorem get_some_lt (r : disk_state) (i : Nat) (c : disk_color) (h : r.get i = some c) :
    i < r.total_count := by
  by_contra hn
  simp [disk_state.get, disk_state.is_index, hn] at h

/-- A compare-and-swap on a reachable row gives a reachable row. -/
theorem reachable_pstep (i : Nat) (cs : List disk_color) (h : Reachable ⟨cs⟩) :
    Reachable ⟨(pstep i cs).1⟩ := by
  unfold pstep
  split
  · rename_i a b ha hb
    split
    · have h1 : i + 1 < cs.length := by
        by_contra hn
        rw [List.getElem?_eq_none (by omega)] at hb
        cases hb
      refine Reachable.swap ⟨cs⟩ _ i h ?_
      have h0 : i < cs.length := by omega
      simp [disk_state.swap, disk_state.is_index, disk_state.total_count, h0, h1, ha, hb]
    · exact h
  · exact h

theorem reachable_pfwd (n i : Nat) (cs : List disk_color) (h : Reachable ⟨cs⟩) :
    Reachable ⟨(pfwd n i cs).1⟩ := by
  induction n generalizing i cs with
  | zero => exact h
  | succ n ih => exact ih (i + 1) _ (reachable_pstep i cs h)

theorem reachable_mixed (b a c : Nat) (h : Reachable ⟨mixed_row a b c⟩) :
    Reachable ⟨mixed_row (a + b) 0 (c + b)⟩ := by
  induction b generalizing a c with
  | zero => exact h
  | succ b ih =>
    have h1 := reachable_pfwd (a + 2 * b + 1) 0 _ h
    rw [pfwd_mixed a b c 0 (a + 2 * b + 1) (by omega) (by omega) (by omega)] at h1
    have h2 := ih (a + 1) (c + 1) h1
    have e1 : a + 1 + b = a + (b + 1) := by omega
    have e2 : c + 1 + b = c + (b + 1) := by omega
    rw [e1, e2] at h2
    exact h2

/-- The sorted row `D^k L^k` is reachable from the constructed row of `2 * k` disks. -/
theorem reachable_sorted_row (k : Nat) (h : 0 < k) (hb : k < 9223372036854775808) :
    Reachable ⟨mixed_row k 0 k⟩ := by
  obtain ⟨b, rfl⟩ : ∃ b, k = b + 1 := ⟨k - 1, by omega⟩
  have h1 : Reachable ⟨alt_dl (b + 1)⟩ := Reachable.ctor (b + 1) _ (construct_eq (b + 1) h hb)
  rw [alt_dl_eq_mixed] at h1
  have h2 := reachable_mixed b 1 1 h1
  have e : 1 + b = b + 1 := by omega
  rw [e] at h2
  exact h2

/-- A sorted row `D^k L^k` of `2^31` disks: `is_sorted()` returns false on it. -/
theorem sorted_row_int_min (k : Nat) (hk : 2 * k = 2147483648) :
    Reachable ⟨mixed_row k 0 k⟩ ∧
      (⟨mixed_row k 0 k⟩ : disk_state).total_count = 2147483648 ∧
      (∀ i, i < (⟨mixed_row k 0 k⟩ : disk_state).total_count / 2 →
        (⟨mixed_row k 0 k⟩ : disk_state).get i = some DISK_DARK) ∧
      (∀ i, (⟨mixed_row k 0 k⟩ : disk_state).total_count / 2 ≤ i →
        i < (⟨mixed_row k 0 k⟩ : disk_state).total_count →
        (⟨mixed_row k 0 k⟩ : disk_state).get i = some DISK_LIGHT) ∧
      (⟨mixed_row k 0 k⟩ : disk_state).is_sorted = some false := by
  have ht := sorted_row_total_count k
  refine ⟨reachable_sorted_row k (by omega) (by omega), by omega, ?_, ?_, ?_⟩
  · intro i hi
    exact sorted_row_get_dark k i (by omega)
  · intro i hi1 hi2
    exact sorted_row_get_light k i (by omega) (by omega)
  · apply is_sorted_int_min
    simp only [disk_state.total_count] at ht
    omega

theorem inversions_swap_le (pre : List disk_color) (x y : disk_color) (rest : List disk_color) :
    inversions (pre ++ x :: y :: rest) ≤ inversions (pre ++ y :: x :: rest) + 1 := by
  induction pre with
  | nil =>
    cases x <;> cases y <;> simp [inversions] <;> omega
  | cons p ps ih =>
    have e : (ps ++ x :: y :: rest).count DISK_DARK = (ps ++ y :: x :: rest).count DISK_DARK := by
      simp only [List.count_append, List.count_cons]
      omega
    show (if p = DISK_LIGHT then (ps ++ x :: y :: rest).count DISK_DARK else 0)
        + inversions (ps ++ x :: y :: rest)
      ≤ (if p = DISK_LIGHT then (ps ++ y :: x :: rest).count DISK_DARK else 0)
        + inversions (ps ++ y :: x :: rest) + 1
    rw [e]
    omega

theorem apply_swaps_length (ops : List Nat) (s s1 : disk_state)
    (h : apply_swaps ops s = some s1) : s1._colors.length = s._colors.length := by
  induction ops generalizing s with
  | nil =>
    simp only [apply_swaps, Option.some.injEq] at h
    rw [h]
  | cons i is ih =>
    simp only [apply_swaps] at h
    cases hs : s.swap i with
    | none => simp [hs] at h
    | some s2 =>
      simp only [hs] at h
      rw [ih s2 h, swap_length s s2 i hs]

/-- Each swap removes at most one inversion. -/
theorem apply_swaps_inversions (ops : List Nat) (s s1 : disk_state)
    (h : apply_swaps ops s = some s1) :
    inversions s._colors ≤ inversions s1._colors + ops.length := by
  induction ops generalizing s with
  | nil =>
    simp only [apply_swaps, Option.some.injEq] at h
    simp [h]
  | cons i is ih =>
    simp only [apply_swaps] at h
    cases hs : s.swap i with
    | none => simp [hs] at h
    | some s2 =>
      simp only [hs] at h
      have h1 := ih s2 h
      obtain ⟨pre, x, y, rest, e1, _, e2⟩ := swap_decomp s s2 i hs
      have h2 := inversions_swap_le pre x y rest
      rw [← e1, ← e2] at h2
      simp only [List.length_cons]
      omega

theorem inversions_alt_dl (b : Nat) : inversions (alt_dl (b + 1)) = tri b := by
  induction b with
  | zero => rfl
  | succ b ih =>
    have e : alt_dl (b + 1 + 1) = DISK_DARK :: DISK_LIGHT :: alt_dl (b + 1) := rfl
    have e2 : inversions (DISK_DARK :: DISK_LIGHT :: alt_dl (b + 1))
        = (alt_dl (b + 1)).count DISK_DARK + inversions (alt_dl (b + 1)) := by
      simp [inversions]
    rw [e, e2, ih, alt_dl_count_dark, tri]
    omega

theorem inversions_sorted_row (a c : Nat) : inversions (mixed_row a 0 c) = 0 := by
  have h1 : ∀ c, inversions (List.replicate c DISK_LIGHT) = 0 := by
    intro c
    induction c with
    | zero => rfl
    | succ c ih => simp [List.replicate_succ, inversions, ih, List.count_replicate]
  induction a with
  | zero => simpa [mixed_row, alt_ld] using h1 c
  | succ a ih =>
    simp only [mixed_row, alt_ld, List.nil_append, List.replicate_succ, List.cons_append,
      inversions] at ih ⊢
    simpa using ih

/-- A row of `2 * k` disks that is dark below index `k` and light from `k` on is the row
`D^k L^k`. -/
theorem eq_sorted_row (r : disk_state) (k : Nat) (hlen : r._colors.length = 2 * k)
    (hd : ∀ i, i < k → r.get i = some DISK_DARK)
    (hl : ∀ i, k ≤ i → i < 2 * k → r.get i = some DISK_LIGHT) :
    r._colors = mixed_row k 0 k := by
  apply List.ext_getElem?
  intro j
  by_cases hj : j < 2 * k
  · have hg := get_eq_getElem? r j (by simp [disk_state.total_count, hlen, hj])
    by_cases hjk : j < k
    · rw [← hg, hd j hjk, mixed_row_get_dark _ _ _ _ hjk]
    · rw [← hg, hl j (by omega) hj, mixed_row_get_light _ _ _ _ (by omega) (by omega)]
  · rw [List.getElem?_eq_none (by omega), List.getElem?_eq_none (by simp; omega)]

/-- C5: `k * (k - 1) / 2` is a lower bound for any solution. For every `k ≥ 1` and every
sequence of `swap(left_index)` calls that all succeed on the constructed row of `k` lights
and leave a row with dark at every index below `k` and light at every index from `k` to
`2 * k - 1`, the sequence has at least `k * (k - 1) / 2` swaps. -/
theorem swaps_lower_bound (k : Nat) (hk : 1 ≤ k) (ops : List Nat) (r0 r : disk_state)
    (h0 : disk_state.construct k = some r0) (h1 : apply_swaps ops r0 = some r)
    (hd : ∀ i, i < k → r.get i = some DISK_DARK)
    (hl : ∀ i, k ≤ i → i < 2 * k → r.get i = some DISK_LIGHT) :
    k * (k - 1) / 2 ≤ ops.length := by
  rw [construct_eq_wrapped k hk] at h0
  cases h0
  have hlast := get_some_lt r (2 * k - 1) _ (hl (2 * k - 1) (by omega) (by omega))
  have hlen0 : r._colors.length = 2 * (to_size_t (k * 2) / 2) := by
    rw [apply_swaps_length ops _ r h1]
    exact alt_dl_length _
  have hkm : to_size_t (k * 2) / 2 = k := by
    simp only [disk_state.total_count, hlen0] at hlast
    unfold to_size_t at hlast ⊢
    omega
  rw [hkm] at h1 hlen0
  have hlen : r._colors.length = 2 * k := hlen0
  have hinv := apply_swaps_inversions ops _ r h1
  rw [eq_sorted_row r k hlen hd hl, inversions_sorted_row] at hinv
  obtain ⟨b, rfl⟩ : ∃ b, k = b + 1 := ⟨k - 1, by omega⟩
  rw [← tri_pred (b + 1) hk]
  simp only [inversions_alt_dl, Nat.zero_add] at hinv
  simpa using hinv

theorem swaps_lower_bound_witness :
    1 ≤ 2 ∧ 2 * (2 - 1) / 2 ≤ [1].length :=
  ⟨by decide,
    swaps_lower_bound 2 (by decide) [1]
      ⟨[DISK_DARK, DISK_LIGHT, DISK_DARK, DISK_LIGHT]⟩
      ⟨[DISK_DARK, DISK_DARK, DISK_LIGHT, DISK_LIGHT]⟩
      (by decide) (by decide) (by decide) (by decide)⟩

/-! ## Claims about the predicates -/

/-- C6 (fails on the code): the row `L D` is reached from the constructed row `D L` by
`swap(0)`, and `is_alternating()` returns true on it; both sorters return it unchanged
with 0 swaps, and `is_sorted()` returns false on what they return. -/
theorem sorters_keep_light_first_row :
    Reachable ⟨[DISK_LIGHT, DISK_DARK]⟩ ∧
      (⟨[DISK_LIGHT, DISK_DARK]⟩ : disk_state).is_alternating = some true ∧
      sort_left_to_right ⟨[DISK_LIGHT, DISK_DARK]⟩
        = some ⟨⟨[DISK_LIGHT, DISK_DARK]⟩, 0⟩ ∧
      (∀ fuel, 1 ≤ fuel → sort_lawnmower fuel ⟨[DISK_LIGHT, DISK_DARK]⟩
        = Outcome.done ⟨⟨[DISK_LIGHT, DISK_DARK]⟩, 0⟩) ∧
      (⟨[DISK_LIGHT, DISK_DARK]⟩ : disk_state).is_sorted = some false := by
  refine ⟨?_, by decide, by decide, ?_, by decide⟩
  · exact Reachable.swap ⟨[DISK_DARK, DISK_LIGHT]⟩ _ 0
      (Reachable.ctor 1 _ (by decide)) (by decide)
  · intro fuel hf
    obtain ⟨n, rfl⟩ : ∃ n, fuel = n + 1 := ⟨fuel - 1, by omega⟩
    rfl

/-- On a row of `2 * k` disks of which `k` are dark, if every index below `k` holds a dark
disk then index `k` holds a light one. -/
theorem middle_is_light (cs : List disk_color) (k : Nat) (hk : 1 ≤ k)
    (hlen : cs.length = 2 * k) (hcount : cs.count DISK_DARK = k)
    (hd : ∀ j, j < k → cs[j]? = some DISK_DARK) : cs[k]? = some DISK_LIGHT := by
  have ht : cs.take k = List.replicate k DISK_DARK := by
    apply List.ext_getElem?
    intro j
    by_cases hj : j < k
    · rw [List.getElem?_take_of_lt hj, hd j hj, List.getElem?_eq_getElem (by simp [hj])]
      simp
    · rw [List.getElem?_eq_none (by simp; omega), List.getElem?_eq_none (by simp; omega)]
  have hkl : k < cs.length := by omega
  have hsplit : cs.count DISK_DARK
      = (cs.take k).count DISK_DARK + (cs.drop k).count DISK_DARK := by
    rw [← List.count_append, List.take_append_drop]
  rw [ht, List.count_replicate_self, hcount, List.drop_eq_getElem_cons hkl] at hsplit
  rw [List.getElem?_eq_getElem hkl]
  cases hc : cs[k] with
  | DISK_LIGHT => rfl
  | DISK_DARK =>
    rw [hc] at hsplit
    simp at hsplit

/-- C7 (counterexample): two reachable rows on which every index below half the length
holds a dark disk and every index from half the length on holds a light disk, and on which
`is_sorted()` nevertheless returns false. The empty row is what the constructor returns for
a light count of `2^63`, where the length `light_count * 2` wraps to 0. The sorted row of
`2^31` disks is reached from the constructed row by swaps; its length does not fit the
`int` that `is_sorted()` stores it in. -/
theorem is_sorted_rejects_sorted_rows :
    (disk_state.construct 9223372036854775808 = some ⟨[]⟩ ∧ Reachable ⟨[]⟩ ∧
      (∀ i, i < (⟨[]⟩ : disk_state).total_count / 2 →
        (⟨[]⟩ : disk_state).get i = some DISK_DARK) ∧
      (∀ i, (⟨[]⟩ : disk_state).total_count / 2 ≤ i → i < (⟨[]⟩ : disk_state).total_count →
        (⟨[]⟩ : disk_state).get i = some DISK_LIGHT) ∧
      (⟨[]⟩ : disk_state).is_sorted = some false) ∧
    (Reachable ⟨mixed_row 1073741824 0 1073741824⟩ ∧
      (⟨mixed_row 1073741824 0 1073741824⟩ : disk_state).total_count = 2147483648 ∧
      (∀ i, i < (⟨mixed_row 1073741824 0 1073741824⟩ : disk_state).total_count / 2 →
        (⟨mixed_row 1073741824 0 1073741824⟩ : disk_state).get i = some DISK_DARK) ∧
      (∀ i, (⟨mixed_row 1073741824 0 1073741824⟩ : disk_state).total_count / 2 ≤ i →
        i < (⟨mixed_row 1073741824 0 1073741824⟩ : disk_state).total_count →
        (⟨mixed_row 1073741824 0 1073741824⟩ : disk_state).get i = some DISK_LIGHT) ∧
      (⟨mixed_row 1073741824 0 1073741824⟩ : disk_state).is_sorted = some false) := by
  refine ⟨⟨by decide, Reachable.ctor 9223372036854775808 _ (by decide), ?_, ?_, by decide⟩,
    sorted_row_int_min 1073741824 (by decide)⟩
  · intro i hi
    simp [disk_state.total_count] at hi
  · intro i _ hi
    simp [disk_state.total_count] at hi

/-- C7 (amended): on every row of `N` disks with `2 ≤ N < 2^31` that is reachable from the
constructor by successful swaps, `is_sorted()` returns a value, and that value is true if
and only if every index below half the length holds a dark disk and every index from half
the length on holds a light disk. -/
theorem is_sorted_iff_of_reachable (r : disk_state) (h : Reachable r)
    (h2 : 2 ≤ r.total_count) (hb : r.total_count < 2147483648) :
    ∃ b, r.is_sorted = some b ∧
      (b = true ↔ (∀ i, i < r.total_count / 2 → r.get i = some DISK_DARK) ∧
        (∀ i, r.total_count / 2 ≤ i → i < r.total_count → r.get i = some DISK_LIGHT)) := by
  obtain ⟨k, hlen, hcount⟩ := reachable_balanced r h
  obtain ⟨cs⟩ := r
  simp only at hlen hcount
  simp only [disk_state.total_count] at h2 hb
  have hk : 1 ≤ k := by omega
  obtain ⟨b, hbs, hiff⟩ := is_sorted_spec cs h2 hb
  refine ⟨b, hbs, ?_⟩
  have hhalf : cs.length / 2 = k := by omega
  rw [hiff]
  simp only [disk_state.total_count, hhalf]
  constructor
  · rintro ⟨hd, hl⟩
    refine ⟨fun i hi => ?_, fun i hi1 hi2 => ?_⟩
    · rw [get_eq_getElem? _ _ (by simp [disk_state.total_count]; omega)]
      exact hd i hi
    · rw [get_eq_getElem? _ _ (by simp [disk_state.total_count]; omega)]
      by_cases hik : i = k
      · subst hik
        exact middle_is_light cs i hk hlen hcount hd
      · exact hl i (by omega) hi2
  · rintro ⟨hd, hl⟩
    refine ⟨fun i hi => ?_, fun i hi1 hi2 => ?_⟩
    · rw [← get_eq_getElem? ⟨cs⟩ i (by simp [disk_state.total_count]; omega)]
      exact hd i hi
    · rw [← get_eq_getElem? ⟨cs⟩ i (by simp [disk_state.total_count]; omega)]
      exact hl i (by omega) hi2

theorem is_sorted_iff_of_reachable_witness :
    Reachable ⟨[DISK_DARK, DISK_DARK, DISK_LIGHT, DISK_LIGHT]⟩ ∧
      2 ≤ (⟨[DISK_DARK, DISK_DARK, DISK_LIGHT, DISK_LIGHT]⟩ : disk_state).total_count ∧
      (⟨[DISK_DARK, DISK_DARK, DISK_LIGHT, DISK_LIGHT]⟩ : disk_state).total_count
        < 2147483648 ∧
      ∃ b, (⟨[DISK_DARK, DISK_DARK, DISK_LIGHT, DISK_LIGHT]⟩ : disk_state).is_sorted
          = some b ∧
        (b = true ↔
          (∀ i, i < (⟨[DISK_DARK, DISK_DARK, DISK_LIGHT, DISK_LIGHT]⟩ :
                disk_state).total_count / 2 →
              (⟨[DISK_DARK, DISK_DARK, DISK_LIGHT, DISK_LIGHT]⟩ : disk_state).get i
                = some DISK_DARK) ∧
          (∀ i, (⟨[DISK_DARK, DISK_DARK, DISK_LIGHT, DISK_LIGHT]⟩ :
                disk_state).total_count / 2 ≤ i →
              i < (⟨[DISK_DARK, DISK_DARK, DISK_LIGHT, DISK_LIGHT]⟩ :
                disk_state).total_count →
              (⟨[DISK_DARK, DISK_DARK, DISK_LIGHT, DISK_LIGHT]⟩ : disk_state).get i
                = some DISK_LIGHT)) :=
  have hr : Reachable ⟨[DISK_DARK, DISK_DARK, DISK_LIGHT, DISK_LIGHT]⟩ :=
    Reachable.swap ⟨[DISK_DARK, DISK_LIGHT, DISK_DARK, DISK_LIGHT]⟩ _ 1
      (Reachable.ctor 2 _ (by decide)) (by decide)
  ⟨hr, by decide, by decide, is_sorted_iff_of_reachable _ hr (by decide) (by decide)⟩

/-- C8 (fails on the code): the row `L D` is reached from the constructed row `D L` by
`swap(0)`; `is_alternating()` returns true on it although index 0 holds a light disk and
index 1 a dark one. -/
theorem is_alternating_accepts_light_first :
    Reachable ⟨[DISK_LIGHT, DISK_DARK]⟩ ∧
      (⟨[DISK_LIGHT, DISK_DARK]⟩ : disk_state).is_alternating = some true ∧
      (⟨[DISK_LIGHT, DISK_DARK]⟩ : disk_state).get 0 = some DISK_LIGHT ∧
      (⟨[DISK_LIGHT, DISK_DARK]⟩ : disk_state).get 1 = some DISK_DARK :=
  ⟨Reachable.swap ⟨[DISK_DARK, DISK_LIGHT]⟩ _ 0 (Reachable.ctor 1 _ (by decide)) (by decide),
    by decide, by decide, by decide⟩

/-- The row `D L L D` followed by `m` dark/light pairs, of `2^31 + 2` disks in all: it is
reached from a constructed row by `swap(2)`, its disks 1 and 2 are both light, and
`is_alternating()` returns true on it. -/
theorem broken_row_int_wrap (m : Nat) (hm : 2 * m + 4 = 2147483650) :
    (∃ r0, disk_state.construct (m + 2) = some r0 ∧
      r0.swap 2 = some ⟨DISK_DARK :: DISK_LIGHT :: DISK_LIGHT :: DISK_DARK :: alt_dl m⟩) ∧
    (⟨DISK_DARK :: DISK_LIGHT :: DISK_LIGHT :: DISK_DARK :: alt_dl m⟩ :
      disk_state).total_count = 2147483650 ∧
    (⟨DISK_DARK :: DISK_LIGHT :: DISK_LIGHT :: DISK_DARK :: alt_dl m⟩ : disk_state).get 1
      = some DISK_LIGHT ∧
    (⟨DISK_DARK :: DISK_LIGHT :: DISK_LIGHT :: DISK_DARK :: alt_dl m⟩ : disk_state).get 2
      = some DISK_LIGHT ∧
    (⟨DISK_DARK :: DISK_LIGHT :: DISK_LIGHT :: DISK_DARK :: alt_dl m⟩ :
      disk_state).is_alternating = some true := by
  have hlen : (DISK_DARK :: DISK_LIGHT :: DISK_LIGHT :: DISK_DARK :: alt_dl m).length
      = 2147483650 := by
    simp only [List.length_cons, alt_dl_length]
    omega
  refine ⟨⟨⟨alt_dl (m + 2)⟩, construct_eq (m + 2) (by omega) (by omega), ?_⟩, hlen, ?_, ?_, ?_⟩
  · have hl2 : (alt_dl (m + 2)).length = 2 * m + 4 := by
      rw [alt_dl_length]
      omega
    have h2 : 2 < (alt_dl (m + 2)).length := by omega
    have h3 : 3 < (alt_dl (m + 2)).length := by omega
    simp only [disk_state.swap, disk_state.is_index, disk_state.total_count, h2, h3,
      decide_True, if_true]
    simp [alt_dl]
  · rw [get_eq_getElem? _ _ (by rw [disk_state.total_count, hlen]; omega)]
    rfl
  · rw [get_eq_getElem? _ _ (by rw [disk_state.total_count, hlen]; omega)]
    rfl
  · obtain ⟨b, hb, hiff⟩ := is_alternating_spec_int
      (DISK_DARK :: DISK_LIGHT :: DISK_LIGHT :: DISK_DARK :: alt_dl m) (by omega)
    have hbt : b = true := by
      rw [hiff]
      constructor
      · intro j hj
        rw [hlen] at hj
        have := to_int_eq ((2147483650 : Nat) : Int)
        omega
      · simp
    rw [hb, hbt]

/-- C9 (counterexample): the row `D L L D D L D L …` of `2^31 + 2` disks, which is
`disk_state(2^30 + 1)` after `swap(2)`. Its disks 1 and 2 are both light, yet
`is_alternating()` returns true: the length does not fit the `int` it is stored in, the
loop bound is negative and only the first two disks are compared. -/
theorem is_alternating_accepts_long_broken_row :
    (∃ r0, disk_state.construct 1073741825 = some r0 ∧
      r0.swap 2
        = some ⟨DISK_DARK :: DISK_LIGHT :: DISK_LIGHT :: DISK_DARK :: alt_dl 1073741823⟩) ∧
    (⟨DISK_DARK :: DISK_LIGHT :: DISK_LIGHT :: DISK_DARK :: alt_dl 1073741823⟩ :
      disk_state).total_count = 2147483650 ∧
    (⟨DISK_DARK :: DISK_LIGHT :: DISK_LIGHT :: DISK_DARK :: alt_dl 1073741823⟩ :
      disk_state).get 1 = some DISK_LIGHT ∧
    (⟨DISK_DARK :: DISK_LIGHT :: DISK_LIGHT :: DISK_DARK :: alt_dl 1073741823⟩ :
      disk_state).get 2 = some DISK_LIGHT ∧
    (⟨DISK_DARK :: DISK_LIGHT :: DISK_LIGHT :: DISK_DARK :: alt_dl 1073741823⟩ :
      disk_state).is_alternating = some true :=
  broken_row_int_wrap 1073741823 (by decide)

/-- C9 (amended): on every row of `N` disks with `2 ≤ N < 2^31`, `is_alternating()` returns
a value, and that value is true if and only if every two neighbouring disks have different
colours. -/
theorem is_alternating_iff_neighbours_differ (r : disk_state) (h : 2 ≤ r.total_count)
    (hlt : r.total_count < 2147483648) :
    ∃ b, r.is_alternating = some b ∧
      (b = true ↔ ∀ i, i + 1 < r.total_count → r.get i ≠ r.get (i + 1)) := by
  obtain ⟨cs⟩ := r
  simp only [disk_state.total_count] at h hlt
  obtain ⟨b, hb, hiff⟩ := is_alternating_spec cs h hlt
  refine ⟨b, hb, ?_⟩
  rw [hiff]
  simp only [disk_state.total_count]
  have hidx : ∀ i, i < cs.length → cs[i]? = some (cs.getD i DISK_DARK) := by
    intro i hi
    simp [List.getD, List.getElem?_eq_getElem hi]
  have hget : ∀ i, i < cs.length →
      (⟨cs⟩ : disk_state).get i = some (cs.getD i DISK_DARK) := by
    intro i hi
    rw [get_eq_getElem? _ _ (by simpa [disk_state.total_count] using hi)]
    exact hidx i hi
  constructor
  · rintro ⟨hp, hne⟩ i
    induction i with
    | zero =>
      intro h1
      rw [hget 0 (by omega), hget 1 h1]
      rw [hidx 0 (by omega), hidx 1 h1] at hne
      exact hne
    | succ i ih =>
      intro h2
      have h1 := ih (by omega)
      have hp1 := hp i (by omega)
      rw [hget i (by omega), hget (i + 1) (by omega)] at h1
      rw [hidx i (by omega), hidx (i + 2) (by omega)] at hp1
      rw [hget (i + 1) (by omega), hget (i + 1 + 1) (by omega)]
      intro hc
      apply h1
      rw [hp1, hc]
  · intro hn
    constructor
    · intro j hj
      have h1 := hn j (by omega)
      have h2 := hn (j + 1) (by omega)
      rw [hget j (by omega), hget (j + 1) (by omega)] at h1
      rw [hget (j + 1) (by omega), hget (j + 1 + 1) (by omega)] at h2
      rw [hidx j (by omega), hidx (j + 2) (by omega)]
      revert h1 h2
      cases cs.getD j DISK_DARK <;> cases cs.getD (j + 1) DISK_DARK <;>
        cases cs.getD (j + 1 + 1) DISK_DARK <;> simp
    · have h1 := hn 0 (by omega)
      rw [hget 0 (by omega), hget 1 (by omega)] at h1
      rw [hidx 0 (by omega), hidx 1 (by omega)]
      exact h1

theorem is_alternating_iff_neighbours_differ_witness :
    2 ≤ (⟨[DISK_DARK, DISK_LIGHT, DISK_LIGHT, DISK_DARK]⟩ : disk_state).total_count ∧
      (⟨[DISK_DARK, DISK_LIGHT, DISK_LIGHT, DISK_DARK]⟩ : disk_state).total_count
        < 2147483648 ∧
      ∃ b, (⟨[DISK_DARK, DISK_LIGHT, DISK_LIGHT, DISK_DARK]⟩ : disk_state).is_alternating
          = some b ∧
        (b = true ↔ ∀ i,
          i + 1 < (⟨[DISK_DARK, DISK_LIGHT, DISK_LIGHT, DISK_DARK]⟩ :
            disk_state).total_count →
          (⟨[DISK_DARK, DISK_LIGHT, DISK_LIGHT, DISK_DARK]⟩ : disk_state).get i
            ≠ (⟨[DISK_DARK, DISK_LIGHT, DISK_LIGHT, DISK_DARK]⟩ : disk_state).get (i + 1)) :=
  ⟨by decide, by decide, is_alternating_iff_neighbours_differ _ (by decide) (by decide)⟩

/-- C10 (fails on the code): `disk_state(1) == disk_state(2)` returns true although the two
rows have 2 and 4 disks. -/
theorem operator_eq_ignores_length :
    ∃ a b, disk_state.construct 1 = some a ∧ disk_state.construct 2 = some b ∧
      a.operator_eq b = some true ∧ a.total_count = 2 ∧ b.total_count = 4 :=
  ⟨⟨[DISK_DARK, DISK_LIGHT]⟩, ⟨[DISK_DARK, DISK_LIGHT, DISK_DARK, DISK_LIGHT]⟩,
    by decide, by decide, by decide, by decide, by decide⟩

/-! ## The constructor and the mutation primitive -/

/-- With both indices in range `swap` succeeds and writes each of the two entries over the
other. -/
theorem swap_some (cs : List disk_color) (i : Nat) (h : i + 1 < cs.length) :
    ∃ a b, cs[i]? = some a ∧ cs[i + 1]? = some b ∧
      (⟨cs⟩ : disk_state).swap i = some ⟨(cs.set i b).set (i + 1) a⟩ := by
  have h0 : i < cs.length := by omega
  refine ⟨cs[i], cs[i + 1], List.getElem?_eq_getElem h0, List.getElem?_eq_getElem h, ?_⟩
  simp [disk_state.swap, disk_state.is_index, disk_state.total_count, h, h0]

/-- C15: for every row of `N` disks and every `left_index` with `left_index + 1 < N`,
`swap(left_index)` succeeds; afterwards the disk at `left_index` is the former disk at
`left_index + 1`, the disk at `left_index + 1` is the former disk at `left_index`, every
other index holds what it held, and `total_count()` is unchanged. -/
theorem swap_frame (r : disk_state) (left_index : Nat)
    (h : left_index + 1 < r.total_count) :
    ∃ r1, r.swap left_index = some r1 ∧
      r1.get left_index = r.get (left_index + 1) ∧
      r1.get (left_index + 1) = r.get left_index ∧
      (∀ j, j ≠ left_index → j ≠ left_index + 1 → r1.get j = r.get j) ∧
      r1.total_count = r.total_count := by
  obtain ⟨cs⟩ := r
  simp only [disk_state.total_count] at h
  obtain ⟨a, b, ha, hb, hs⟩ := swap_some cs left_index h
  refine ⟨_, hs, ?_, ?_, ?_, ?_⟩
  · simp only [disk_state.get, disk_state.is_index, disk_state.total_count, List.length_set,
      h, (by omega : left_index < cs.length), decide_True, if_true, hb]
    rw [List.getElem?_set_ne (by omega), List.getElem?_set_self (by omega)]
  · simp only [disk_state.get, disk_state.is_index, disk_state.total_count, List.length_set,
      h, (by omega : left_index < cs.length), decide_True, if_true, ha]
    rw [List.getElem?_set_self (by simp; omega)]
  · intro j hj1 hj2
    simp only [disk_state.get, disk_state.is_index, disk_state.total_count, List.length_set]
    rw [List.getElem?_set_ne (by omega), List.getElem?_set_ne (by omega)]
  · simp [disk_state.total_count]

theorem swap_frame_witness :
    0 + 1 < (⟨[DISK_LIGHT, DISK_DARK, DISK_DARK, DISK_LIGHT]⟩ : disk_state).total_count ∧
      ∃ r1, (⟨[DISK_LIGHT, DISK_DARK, DISK_DARK, DISK_LIGHT]⟩ : disk_state).swap 0 = some r1 ∧
        r1.get 0 = (⟨[DISK_LIGHT, DISK_DARK, DISK_DARK, DISK_LIGHT]⟩ : disk_state).get (0 + 1) ∧
        r1.get (0 + 1) = (⟨[DISK_LIGHT, DISK_DARK, DISK_DARK, DISK_LIGHT]⟩ : disk_state).get 0 ∧
        (∀ j, j ≠ 0 → j ≠ 0 + 1 →
          r1.get j = (⟨[DISK_LIGHT, DISK_DARK, DISK_DARK, DISK_LIGHT]⟩ : disk_state).get j) ∧
        r1.total_count
          = (⟨[DISK_LIGHT, DISK_DARK, DISK_DARK, DISK_LIGHT]⟩ : disk_state).total_count :=
  ⟨by decide, swap_frame _ 0 (by decide)⟩

/-- C16: on every row of `N` disks, `get(index)` fails exactly when `index ≥ N`, and
`swap(left_index)` fails exactly when `left_index ≥ N` or `left_index + 1 ≥ N`. A failing
`swap` is the value `none`: it hands back no row, changed or not. -/
theorem index_errors (r : disk_state) (i : Nat) :
    (r.get i = none ↔ r.total_count ≤ i) ∧
      (r.swap i = none ↔ (r.total_count ≤ i ∨ r.total_count ≤ i + 1)) := by
  obtain ⟨cs⟩ := r
  constructor
  · by_cases h : i < cs.length
    · simp [disk_state.get, disk_state.is_index, disk_state.total_count, h]
    · simp [disk_state.get, disk_state.is_index, disk_state.total_count, h]
      omega
  · by_cases h : i + 1 < cs.length
    · obtain ⟨a, b, _, _, hs⟩ := swap_some cs i h
      simp only [hs, disk_state.total_count]
      simp
      omega
    · have : (⟨cs⟩ : disk_state).swap i = none := by
        simp only [disk_state.swap, disk_state.is_index, disk_state.total_count, h,
          decide_False]
        simp
      simp only [this, disk_state.total_count, true_iff]
      omega

/-! ## Swaps and sorters permute the row -/

theorem swap_perm (s s1 : disk_state) (i : Nat) (h : s.swap i = some s1) :
    s1._colors.Perm s._colors := by
  obtain ⟨pre, x, y, rest, h1, _, h2⟩ := swap_decomp s s1 i h
  rw [h1, h2]
  exact List.Perm.append_left pre (List.Perm.swap x y rest)

theorem apply_swaps_perm (ops : List Nat) (s s1 : disk_state)
    (h : apply_swaps ops s = some s1) : s1._colors.Perm s._colors := by
  induction ops generalizing s with
  | nil =>
    simp only [apply_swaps, Option.some.injEq] at h
    rw [h]
  | cons i is ih =>
    simp only [apply_swaps] at h
    cases hs : s.swap i with
    | none => simp [hs] at h
    | some s2 =>
      simp only [hs] at h
      exact (ih s2 h).trans (swap_perm s s2 i hs)

theorem ltr_body_perm (j : Nat) (st st1 : disk_state × Nat) (h : ltr_body j st = some st1) :
    st1.1._colors.Perm st.1._colors := by
  unfold ltr_body at h
  split at h
  · split at h
    · cases hs : st.1.swap j with
      | none => simp [hs] at h
      | some c =>
        simp only [hs, Option.some.injEq] at h
        rw [← h]
        exact swap_perm _ _ _ hs
    · simp only [Option.some.injEq] at h
      rw [h]
  · simp at h

theorem lawn_body_perm (j : Nat) (st st1 : disk_state × Nat × Bool)
    (h : lawn_body j st = some st1) : st1.1._colors.Perm st.1._colors := by
  unfold lawn_body at h
  split at h
  · split at h
    · cases hs : st.1.swap j with
      | none => simp [hs] at h
      | some c =>
        simp only [hs, Option.some.injEq] at h
        rw [← h]
        exact swap_perm _ _ _ hs
    · simp only [Option.some.injEq] at h
      rw [h]
  · simp at h

theorem ltr_inner_perm (n j : Nat) (st st1 : disk_state × Nat)
    (h : ltr_inner n j st = some st1) : st1.1._colors.Perm st.1._colors := by
  induction n generalizing j st with
  | zero =>
    simp only [ltr_inner, Option.some.injEq] at h
    rw [h]
  | succ n ih =>
    simp only [ltr_inner] at h
    cases hb : ltr_body j st with
    | none => simp [hb] at h
    | some st2 =>
      simp only [hb] at h
      exact (ih _ _ h).trans (ltr_body_perm j st st2 hb)

theorem ltr_outer_perm (z : Int) (n : Nat) (st st1 : disk_state × Nat)
    (h : ltr_outer z n st = some st1) : st1.1._colors.Perm st.1._colors := by
  induction n generalizing st with
  | zero =>
    simp only [ltr_outer, Option.some.injEq] at h
    rw [h]
  | succ n ih =>
    simp only [ltr_outer] at h
    cases hb : ltr_inner (z - 2).toNat 0 st with
    | none => simp [hb] at h
    | some st2 =>
      simp only [hb] at h
      exact (ih _ h).trans (ltr_inner_perm _ _ st st2 hb)

theorem lawn_forward_perm (n j : Nat) (st st1 : disk_state × Nat × Bool)
    (h : lawn_forward n j st = some st1) : st1.1._colors.Perm st.1._colors := by
  induction n generalizing j st with
  | zero =>
    simp only [lawn_forward, Option.some.injEq] at h
    rw [h]
  | succ n ih =>
    simp only [lawn_forward] at h
    cases hb : lawn_body j st with
    | none => simp [hb] at h
    | some st2 =>
      simp only [hb] at h
      exact (ih _ _ h).trans (lawn_body_perm j st st2 hb)

theorem lawn_backward_perm (n : Nat) (st st1 : disk_state × Nat × Bool)
    (h : lawn_backward n st = some st1) : st1.1._colors.Perm st.1._colors := by
  induction n generalizing st with
  | zero =>
    simp only [lawn_backward, Option.some.injEq] at h
    rw [h]
  | succ n ih =>
    simp only [lawn_backward] at h
    cases hb : lawn_body n st with
    | none => simp [hb] at h
    | some st2 =>
      simp only [hb] at h
      exact (ih _ h).trans (lawn_body_perm n st st2 hb)

theorem lawn_loop_perm (fuel : Nat) (copy : disk_state) (count : Nat) (z : Int) (s : Nat)
    (res : disk_state × Nat) (h : lawn_loop fuel copy count z s = Outcome.done res) :
    res.1._colors.Perm copy._colors := by
  induction fuel generalizing copy count z s with
  | zero => simp [lawn_loop] at h
  | succ fuel ih =>
    rw [lawn_loop_succ] at h
    cases hf : lawn_forward (z - 2 - (s : Int)).toNat s (copy, count, false) with
    | none =>
      rw [hf] at h
      cases h
    | some st1 =>
      obtain ⟨c1, n1, k1⟩ := st1
      have p1 := lawn_forward_perm _ _ _ _ hf
      rw [hf] at h
      cases k1 with
      | false =>
        simp only [Bool.not_false, if_true, Outcome.done.injEq] at h
        rw [← h]
        exact p1
      | true =>
        simp only [Bool.not_true, Bool.false_eq_true, if_false] at h
        cases hb : lawn_backward (z - 1 - 1).toNat (c1, n1, false) with
        | none =>
          rw [hb] at h
          cases h
        | some st2 =>
          obtain ⟨c2, n2, k2⟩ := st2
          have p2 := lawn_backward_perm _ _ _ hb
          rw [hb] at h
          cases k2 with
          | false =>
            simp only [Bool.false_eq_true, if_false, Outcome.done.injEq] at h
            rw [← h]
            exact p2.trans p1
          | true =>
            simp only [if_true] at h
            exact ((ih _ _ _ _ h).trans p2).trans p1

theorem sort_left_to_right_perm (r : disk_state) (res : sorted_disks)
    (h : sort_left_to_right r = some res) : res.after._colors.Perm r._colors := by
  by_cases ha : r.is_alternating = some true
  · rw [sort_left_to_right_of_alt r ha] at h
    cases ho : ltr_outer (to_int (r.total_count : Int))
        (to_int (r.total_count : Int) - 1).toNat (r, 0) with
    | none =>
      rw [ho] at h
      cases h
    | some st =>
      obtain ⟨c, n⟩ := st
      rw [ho] at h
      simp only [Option.some.injEq] at h
      rw [← h]
      exact ltr_outer_perm _ _ _ _ ho
  · rw [sort_left_to_right_of_not_alt r ha] at h
    cases h

theorem sort_lawnmower_perm (fuel : Nat) (r : disk_state) (res : sorted_disks)
    (h : sort_lawnmower fuel r = Outcome.done res) : res.after._colors.Perm r._colors := by
  by_cases ha : r.is_alternating = some true
  · rw [sort_lawnmower_of_alt fuel r ha] at h
    cases ho : lawn_loop fuel r 0 (to_int (r.total_count : Int)) 0 with
    | done st =>
      obtain ⟨c, n⟩ := st
      rw [ho] at h
      simp only [Outcome.done.injEq] at h
      rw [← h]
      exact lawn_loop_perm _ _ _ _ _ _ ho
    | abort =>
      rw [ho] at h
      cases h
    | diverge =>
      rw [ho] at h
      cases h
  · rw [sort_lawnmower_of_not_alt fuel r ha] at h
    cases h

theorem alt_dl_count_light (k : Nat) : (alt_dl k).count DISK_LIGHT = k := by
  induction k with
  | zero => rfl
  | succ k ih => simp [alt_dl, ih]

theorem counts_of_perm_alt_dl (r : disk_state) (k : Nat) (h : r._colors.Perm (alt_dl k)) :
    r._colors.count DISK_LIGHT = r.light_count ∧ r._colors.count DISK_DARK = r.dark_count ∧
      r.light_count = k ∧ r.dark_count = k ∧ r.total_count / 2 = k := by
  have hl : r._colors.length = 2 * k := by rw [h.length_eq, alt_dl_length]
  have h1 : r._colors.count DISK_LIGHT = k := by rw [h.count_eq, alt_dl_count_light]
  have h2 : r._colors.count DISK_DARK = k := by rw [h.count_eq, alt_dl_count_dark]
  simp only [disk_state.dark_count, disk_state.light_count, disk_state.total_count, hl, h1, h2]
  omega

/-- C17 (counterexample): for the light count `k = 2^63 + 1` the product `light_count * 2`
wraps to 2 and the constructor returns the row `D L`; on it (no swap made) `light_count()`,
`dark_count()` and `total_count() / 2` are 1, not `k`. -/
theorem count_invariant_wraps :
    ∃ r0 r, disk_state.construct 9223372036854775809 = some r0 ∧
      apply_swaps [] r0 = some r ∧
      r = ⟨[DISK_DARK, DISK_LIGHT]⟩ ∧
      r.light_count = 1 ∧ r.dark_count = 1 ∧ r.total_count / 2 = 1 ∧
      r.light_count ≠ 9223372036854775809 :=
  ⟨⟨[DISK_DARK, DISK_LIGHT]⟩, ⟨[DISK_DARK, DISK_LIGHT]⟩, by decide, rfl, rfl, by decide,
    by decide, by decide, by decide⟩

/-- C17 (amended): every row reached from the constructed row of `k` lights, `1 ≤ k < 2^63`,
by successful swaps holds as many light disks as `light_count()` says and as many dark disks
as `dark_count()` says, and both are `total_count() / 2 = k`; the same is true of the final
row of either sorter whenever it returns one on such a row. -/
theorem count_invariant (k : Nat) (hk : 1 ≤ k) (hb : k < 9223372036854775808)
    (ops : List Nat) (r0 r : disk_state)
    (h0 : disk_state.construct k = some r0) (h1 : apply_swaps ops r0 = some r) :
    (r._colors.count DISK_LIGHT = r.light_count ∧ r._colors.count DISK_DARK = r.dark_count ∧
        r.light_count = k ∧ r.dark_count = k ∧ r.total_count / 2 = k) ∧
      (∀ res, sort_left_to_right r = some res →
        res.after._colors.count DISK_LIGHT = res.after.light_count ∧
          res.after._colors.count DISK_DARK = res.after.dark_count ∧
          res.after.light_count = k ∧ res.after.dark_count = k ∧
          res.after.total_count / 2 = k) ∧
      (∀ fuel res, sort_lawnmower fuel r = Outcome.done res →
        res.after._colors.count DISK_LIGHT = res.after.light_count ∧
          res.after._colors.count DISK_DARK = res.after.dark_count ∧
          res.after.light_count = k ∧ res.after.dark_count = k ∧
          res.after.total_count / 2 = k) := by
  rw [construct_eq k hk hb] at h0
  cases h0
  have hp := apply_swaps_perm ops _ r h1
  exact ⟨counts_of_perm_alt_dl r k hp,
    fun res hres => counts_of_perm_alt_dl _ k ((sort_left_to_right_perm r res hres).trans hp),
    fun fuel res hres =>
      counts_of_perm_alt_dl _ k ((sort_lawnmower_perm fuel r res hres).trans hp)⟩

theorem count_invariant_witness :
    1 ≤ 2 ∧ 2 < 9223372036854775808 ∧
      disk_state.construct 2 = some (⟨[DISK_DARK, DISK_LIGHT, DISK_DARK, DISK_LIGHT]⟩ : disk_state) ∧
      apply_swaps [0, 2] (⟨[DISK_DARK, DISK_LIGHT, DISK_DARK, DISK_LIGHT]⟩ : disk_state)
        = some (⟨[DISK_LIGHT, DISK_DARK, DISK_LIGHT, DISK_DARK]⟩ : disk_state) ∧
      ((⟨[DISK_LIGHT, DISK_DARK, DISK_LIGHT, DISK_DARK]⟩ : disk_state)._colors.count DISK_LIGHT
          = (⟨[DISK_LIGHT, DISK_DARK, DISK_LIGHT, DISK_DARK]⟩ : disk_state).light_count ∧
        (⟨[DISK_LIGHT, DISK_DARK, DISK_LIGHT, DISK_DARK]⟩ : disk_state)._colors.count DISK_DARK
          = (⟨[DISK_LIGHT, DISK_DARK, DISK_LIGHT, DISK_DARK]⟩ : disk_state).dark_count ∧
        (⟨[DISK_LIGHT, DISK_DARK, DISK_LIGHT, DISK_DARK]⟩ : disk_state).light_count = 2 ∧
        (⟨[DISK_LIGHT, DISK_DARK, DISK_LIGHT, DISK_DARK]⟩ : disk_state).dark_count = 2 ∧
        (⟨[DISK_LIGHT, DISK_DARK, DISK_LIGHT, DISK_DARK]⟩ : disk_state).total_count / 2 = 2) ∧
      (∀ res, sort_left_to_right (⟨[DISK_LIGHT, DISK_DARK, DISK_LIGHT, DISK_DARK]⟩ : disk_state) = some res →
        res.after._colors.count DISK_LIGHT = res.after.light_count ∧
          res.after._colors.count DISK_DARK = res.after.dark_count ∧
          res.after.light_count = 2 ∧ res.after.dark_count = 2 ∧
          res.after.total_count / 2 = 2) ∧
      (∀ fuel res, sort_lawnmower fuel (⟨[DISK_LIGHT, DISK_DARK, DISK_LIGHT, DISK_DARK]⟩ : disk_state) = Outcome.done res →
        res.after._colors.count DISK_LIGHT = res.after.light_count ∧
          res.after._colors.count DISK_DARK = res.after.dark_count ∧
          res.after.light_count = 2 ∧ res.after.dark_count = 2 ∧
          res.after.total_count / 2 = 2) :=
  ⟨by decide, by decide, by decide, by decide,
    count_invariant 2 (by decide) (by decide) [0, 2]
      ⟨[DISK_DARK, DISK_LIGHT, DISK_DARK, DISK_LIGHT]⟩
      ⟨[DISK_LIGHT, DISK_DARK, DISK_LIGHT, DISK_DARK]⟩ (by decide) (by decide)⟩

/-! ## Index safety and termination of the sorters on any row -/

theorem ltr_body_none_iff (j : Nat) (c : disk_state) (n : Nat) :
    ltr_body j (c, n) = none ↔ c.total_count ≤ j + 1 := by
  obtain ⟨cs⟩ := c
  by_cases h : j + 1 < cs.length
  · rw [ltr_body_eq cs n j h]
    simp [disk_state.total_count, h]
  · have h1 : (⟨cs⟩ : disk_state).get (j + 1) = none := by
      simp [disk_state.get, disk_state.is_index, disk_state.total_count, h]
    have h0 : ltr_body j (⟨cs⟩, n) = none := by
      unfold ltr_body
      simp only [h1]
      cases (⟨cs⟩ : disk_state).get j <;> rfl
    simp only [h0, disk_state.total_count, true_iff]
    omega

theorem lawn_body_none_iff (j : Nat) (c : disk_state) (n : Nat) (chk : Bool) :
    lawn_body j (c, n, chk) = none ↔ c.total_count ≤ j + 1 := by
  obtain ⟨cs⟩ := c
  by_cases h : j + 1 < cs.length
  · rw [lawn_body_eq cs n j chk h]
    simp [disk_state.total_count, h]
  · have h1 : (⟨cs⟩ : disk_state).get (j + 1) = none := by
      simp [disk_state.get, disk_state.is_index, disk_state.total_count, h]
    have h0 : lawn_body j (⟨cs⟩, n, chk) = none := by
      unfold lawn_body
      simp only [h1]
      cases (⟨cs⟩ : disk_state).get j <;> rfl
    simp only [h0, disk_state.total_count, true_iff]
    omega

/-- The loops of `sort_left_to_right` never leave the row when `sizeOfVector` is at most
the length of the row: they return a row of the same length, whatever the colours. -/
theorem ltr_outer_some (n : Nat) (z : Int) (cs : List disk_color) (cnt : Nat)
    (hz : z ≤ (cs.length : Int)) :
    ∃ cs1 cnt1, ltr_outer z n (⟨cs⟩, cnt) = some (⟨cs1⟩, cnt1) ∧ cs1.length = cs.length := by
  induction n generalizing cs cnt with
  | zero => exact ⟨cs, cnt, rfl, rfl⟩
  | succ n ih =>
    simp only [ltr_outer]
    by_cases h0 : (z - 2).toNat = 0
    · rw [h0]
      exact ih cs cnt hz
    · rw [ltr_inner_eq _ _ _ _ (by omega)]
      obtain ⟨cs1, cnt1, h1, h2⟩ := ih (pfwd (z - 2).toNat 0 cs).1
        (cnt + (pfwd (z - 2).toNat 0 cs).2) (by rw [pfwd_length]; exact hz)
      exact ⟨cs1, cnt1, h1, by rw [h2, pfwd_length]⟩

/-- One more unit of fuel does not change a result of the `do … while` loop. -/
theorem lawn_loop_mono (fuel : Nat) (copy : disk_state) (count : Nat) (z : Int) (s : Nat)
    (res : disk_state × Nat) (h : lawn_loop fuel copy count z s = Outcome.done res) :
    lawn_loop (fuel + 1) copy count z s = Outcome.done res := by
  induction fuel generalizing copy count z s with
  | zero => simp [lawn_loop] at h
  | succ fuel ih =>
    rw [lawn_loop_succ] at h
    rw [lawn_loop_succ]
    cases hf : lawn_forward (z - 2 - (s : Int)).toNat s (copy, count, false) with
    | none =>
      rw [hf] at h
      cases h
    | some st1 =>
      obtain ⟨c1, n1, k1⟩ := st1
      rw [hf] at h
      cases k1 with
      | false => exact h
      | true =>
        simp only [Bool.not_true, Bool.false_eq_true, if_false] at h ⊢
        cases hb : lawn_backward (z - 1 - 1).toNat (c1, n1, false) with
        | none =>
          rw [hb] at h
          cases h
        | some st2 =>
          obtain ⟨c2, n2, k2⟩ := st2
          rw [hb] at h
          cases k2 with
          | false => exact h
          | true =>
            simp only [if_true] at h ⊢
            exact ih _ _ _ _ h

theorem lawn_loop_mono_le (fuel fuel1 : Nat) (copy : disk_state) (count : Nat) (z : Int)
    (s : Nat) (res : disk_state × Nat) (hle : fuel ≤ fuel1)
    (h : lawn_loop fuel copy count z s = Outcome.done res) :
    lawn_loop fuel1 copy count z s = Outcome.done res := by
  induction fuel1 with
  | zero =>
    obtain rfl : fuel = 0 := by omega
    exact h
  | succ m ih =>
    by_cases hm : fuel ≤ m
    · exact lawn_loop_mono _ _ _ _ _ _ (ih hm)
    · obtain rfl : fuel = m + 1 := by omega
      exact h

/-- The `do … while` loop on any row, entered with `sizeOfVector` at most the length of the
row: no assertion fails, and the loop returns unless the fuel is zero or less than half of
`sizeOfVector - startOfVector`. -/
theorem lawn_loop_safe (fuel : Nat) (cs : List disk_color) (cnt s : Nat) (z : Int)
    (h2 : z ≤ (cs.length : Int)) :
    (∃ cs1 cnt1, lawn_loop fuel ⟨cs⟩ cnt z s = Outcome.done (⟨cs1⟩, cnt1) ∧
        cs1.length = cs.length) ∨
      (lawn_loop fuel ⟨cs⟩ cnt z s = Outcome.diverge ∧
        (fuel = 0 ∨ 2 * (fuel : Int) < z - s)) := by
  induction fuel generalizing cs cnt s z with
  | zero =>
    right
    exact ⟨rfl, Or.inl rfl⟩
  | succ fuel ih =>
    by_cases hz : (s : Int) + 2 < z
    · obtain ⟨zn, rfl⟩ : ∃ zn : Nat, z = (zn : Int) := ⟨z.toNat, by omega⟩
      have e1 : ((zn : Int) - 2 - (s : Int)).toNat = zn - 2 - s := by omega
      have e2 : ((zn : Int) - 1 - 1).toNat = zn - 2 := by omega
      rw [lawn_loop_succ, e1, e2, lawn_forward_eq _ _ _ _ _ (by omega)]
      by_cases hsw : 0 < (pfwd (zn - 2 - s) s cs).2
      · simp only [Bool.false_or, hsw, decide_True, Bool.not_true, Bool.false_eq_true,
          if_false]
        rw [lawn_backward_eq _ _ _ _ (by rw [pfwd_length]; omega)]
        by_cases hsb : 0 < (pbwd (zn - 2) 0 (pfwd (zn - 2 - s) s cs).1).2
        · simp only [Bool.false_or, hsb, decide_True, if_true]
          have hlen : (pbwd (zn - 2) 0 (pfwd (zn - 2 - s) s cs).1).1.length = cs.length := by
            rw [pbwd_length, pfwd_length]
          rcases ih (pbwd (zn - 2) 0 (pfwd (zn - 2 - s) s cs).1).1
              (cnt + (pfwd (zn - 2 - s) s cs).2
                + (pbwd (zn - 2) 0 (pfwd (zn - 2 - s) s cs).1).2)
              (s + 1) ((zn : Int) - 1) (by rw [hlen]; omega) with
            ⟨cs1, cnt1, hd, hl⟩ | ⟨hd, hlt⟩
          · left
            exact ⟨cs1, cnt1, hd, by rw [hl, hlen]⟩
          · right
            refine ⟨hd, Or.inr ?_⟩
            rcases hlt with h0 | hlt
            · subst h0
              push_cast
              omega
            · push_cast at hlt ⊢
              omega
        · left
          simp only [Bool.false_or, hsb, decide_False, Bool.false_eq_true, if_false]
          exact ⟨_, _, rfl, by rw [pbwd_length, pfwd_length]⟩
      · left
        simp only [Bool.false_or, hsw, decide_False, Bool.not_false, if_true]
        exact ⟨_, _, rfl, by rw [pfwd_length]⟩
    · left
      have e1 : (z - 2 - (s : Int)).toNat = 0 := by omega
      rw [lawn_loop_succ, e1]
      exact ⟨cs, cnt, rfl, rfl⟩

/-- On a row of `N ≥ 2` disks, whatever the colours and whatever value at most `N` the
variable `sizeOfVector` starts with, the `do … while` loop of `sort_lawnmower` returns a
result as soon as the fuel covers half the row, and every larger fuel gives the same
result. -/
theorem lawn_loop_total (cs : List disk_color) (z : Int) (h2 : 2 ≤ cs.length)
    (hz : z ≤ (cs.length : Int)) :
    ∃ cs1 cnt1, cs1.length = cs.length ∧
      ∀ fuel, cs.length ≤ 2 * fuel →
        lawn_loop fuel ⟨cs⟩ 0 z 0 = Outcome.done (⟨cs1⟩, cnt1) := by
  rcases lawn_loop_safe ((cs.length + 1) / 2) cs 0 0 z hz with
    ⟨cs1, cnt1, hd, hl⟩ | ⟨_, hlt⟩
  · refine ⟨cs1, cnt1, hl, fun fuel hf => ?_⟩
    exact lawn_loop_mono_le _ fuel _ _ _ _ _ (by omega) hd
  · omega

theorem lawn_loop_ne_abort (fuel : Nat) (cs : List disk_color) (z : Int)
    (hz : z ≤ (cs.length : Int)) :
    lawn_loop fuel ⟨cs⟩ 0 z 0 ≠ Outcome.abort := by
  rcases lawn_loop_safe fuel cs 0 0 z hz with ⟨cs1, cnt1, hd, _⟩ | ⟨hd, _⟩
  · rw [hd]
    simp
  · rw [hd]
    simp

/-- The `int` that holds the length of a row is at most the length. -/
theorem to_int_length_le (n : Nat) : to_int (n : Int) ≤ (n : Int) := by
  by_cases h : 0 ≤ to_int (n : Int)
  · exact to_int_le n h
  · omega

/-- C13: on every row of at least two disks, `sort_left_to_right` fails exactly when
`is_alternating()` is false, and so does `sort_lawnmower` (with any amount of fuel);
where `is_alternating()` is true both sorters return a result, the lawnmower as soon as
its fuel covers half the row. -/
theorem sorters_fail_iff_not_alternating (r : disk_state) (h : 2 ≤ r.total_count) :
    (sort_left_to_right r = none ↔ r.is_alternating = some false) ∧
      (∀ fuel, sort_lawnmower fuel r = Outcome.abort ↔ r.is_alternating = some false) ∧
      (r.is_alternating = some true →
        (∃ res, sort_left_to_right r = some res) ∧
          ∃ res, ∀ fuel, r.total_count ≤ 2 * fuel →
            sort_lawnmower fuel r = Outcome.done res) := by
  obtain ⟨cs⟩ := r
  simp only [disk_state.total_count] at h
  obtain ⟨b, hb, _⟩ := is_alternating_spec_int cs h
  obtain ⟨cs1, cnt1, ho, _⟩ := ltr_outer_some (to_int (cs.length : Int) - 1).toNat
    (to_int (cs.length : Int)) cs 0 (to_int_length_le _)
  obtain ⟨cs2, cnt2, _, hl⟩ := lawn_loop_total cs (to_int (cs.length : Int)) h
    (to_int_length_le _)
  cases b with
  | false =>
    have hne : (⟨cs⟩ : disk_state).is_alternating ≠ some true := by rw [hb]; simp
    refine ⟨?_, fun fuel => ?_, fun ht => ?_⟩
    · simp [sort_left_to_right_of_not_alt _ hne, hb]
    · simp [sort_lawnmower_of_not_alt fuel _ hne, hb]
    · exact absurd ht hne
  | true =>
    have hs : sort_left_to_right ⟨cs⟩ = some ⟨⟨cs1⟩, to_unsigned cnt1⟩ := by
      rw [sort_left_to_right_of_alt _ hb]
      simp only [disk_state.total_count]
      rw [ho]
    refine ⟨?_, fun fuel => ?_,
      fun _ => ⟨⟨_, hs⟩, ⟨⟨cs2⟩, to_unsigned cnt2⟩, fun fuel hf => ?_⟩⟩
    · simp [hs, hb]
    · rw [sort_lawnmower_of_alt fuel _ hb]
      simp only [disk_state.total_count, hb]
      have hna := lawn_loop_ne_abort fuel cs (to_int (cs.length : Int)) (to_int_length_le _)
      cases hq : lawn_loop fuel ⟨cs⟩ 0 (to_int (cs.length : Int)) 0 with
      | done st => simp
      | abort => exact absurd hq hna
      | diverge => simp
    · rw [sort_lawnmower_of_alt fuel _ hb]
      simp only [disk_state.total_count] at hf ⊢
      rw [hl fuel hf]

theorem sorters_fail_iff_not_alternating_witness :
    2 ≤ (⟨[DISK_DARK, DISK_DARK, DISK_LIGHT, DISK_LIGHT]⟩ : disk_state).total_count ∧
      (sort_left_to_right ⟨[DISK_DARK, DISK_DARK, DISK_LIGHT, DISK_LIGHT]⟩ = none ↔
        (⟨[DISK_DARK, DISK_DARK, DISK_LIGHT, DISK_LIGHT]⟩ : disk_state).is_alternating
          = some false) ∧
      (∀ fuel, sort_lawnmower fuel ⟨[DISK_DARK, DISK_DARK, DISK_LIGHT, DISK_LIGHT]⟩
          = Outcome.abort ↔
        (⟨[DISK_DARK, DISK_DARK, DISK_LIGHT, DISK_LIGHT]⟩ : disk_state).is_alternating
          = some false) ∧
      ((⟨[DISK_DARK, DISK_DARK, DISK_LIGHT, DISK_LIGHT]⟩ : disk_state).is_alternating
          = some true →
        (∃ res, sort_left_to_right ⟨[DISK_DARK, DISK_DARK, DISK_LIGHT, DISK_LIGHT]⟩
            = some res) ∧
          ∃ res, ∀ fuel,
            (⟨[DISK_DARK, DISK_DARK, DISK_LIGHT, DISK_LIGHT]⟩ : disk_state).total_count
                ≤ 2 * fuel →
              sort_lawnmower fuel ⟨[DISK_DARK, DISK_DARK, DISK_LIGHT, DISK_LIGHT]⟩
                = Outcome.done res) :=
  ⟨by decide, sorters_fail_iff_not_alternating _ (by decide)⟩

/-- C19: on every row of `N = 2 * k ≥ 2` disks, whatever its colours, the `do … while`
loop of `sort_lawnmower` ends within `k` executions of its body: with fuel `k` or more it
returns a result, the same for every such fuel, whatever value at most `N` the variable
`sizeOfVector` starts with (the length itself, or the `int` the code narrows it to); so
`sort_lawnmower` with fuel `k` does not run out of fuel and agrees with every larger
fuel. -/
theorem lawnmower_terminates (r : disk_state) (k : Nat) (hk : 1 ≤ k)
    (hN : r.total_count = 2 * k) :
    (∀ z : Int, z ≤ (r.total_count : Int) →
        ∃ res, ∀ fuel, k ≤ fuel → lawn_loop fuel r 0 z 0 = Outcome.done res) ∧
      (∃ res, ∀ fuel, k ≤ fuel →
        lawn_loop fuel r 0 (r.total_count : Int) 0 = Outcome.done res) ∧
      (∃ res, ∀ fuel, k ≤ fuel →
        lawn_loop fuel r 0 (to_int (r.total_count : Int)) 0 = Outcome.done res) ∧
      sort_lawnmower k r ≠ Outcome.diverge ∧
      (∀ fuel, k ≤ fuel → sort_lawnmower fuel r = sort_lawnmower k r) := by
  obtain ⟨cs⟩ := r
  simp only [disk_state.total_count] at hN ⊢
  have hgen : ∀ z : Int, z ≤ (cs.length : Int) →
      ∃ res, ∀ fuel, k ≤ fuel → lawn_loop fuel ⟨cs⟩ 0 z 0 = Outcome.done res := by
    intro z hz
    obtain ⟨cs2, cnt2, _, hl⟩ := lawn_loop_total cs z (by omega) hz
    exact ⟨_, fun fuel hf => hl fuel (by omega)⟩
  obtain ⟨res, hall⟩ := hgen (to_int (cs.length : Int)) (to_int_length_le _)
  refine ⟨hgen, hgen _ (Int.le_refl _), ⟨res, hall⟩, ?_, fun fuel hf => ?_⟩
  · by_cases ha : (⟨cs⟩ : disk_state).is_alternating = some true
    · rw [sort_lawnmower_of_alt k _ ha]
      simp only [disk_state.total_count]
      rw [hall k (Nat.le_refl _)]
      simp
    · rw [sort_lawnmower_of_not_alt k _ ha]
      simp
  · by_cases ha : (⟨cs⟩ : disk_state).is_alternating = some true
    · rw [sort_lawnmower_of_alt k _ ha, sort_lawnmower_of_alt fuel _ ha]
      simp only [disk_state.total_count]
      rw [hall k (Nat.le_refl _), hall fuel hf]
    · rw [sort_lawnmower_of_not_alt k _ ha, sort_lawnmower_of_not_alt fuel _ ha]

theorem lawnmower_terminates_witness :
    1 ≤ 2 ∧
      (⟨[DISK_LIGHT, DISK_LIGHT, DISK_DARK, DISK_DARK]⟩ : disk_state).total_count = 2 * 2 ∧
      (∀ z : Int,
        z ≤ ((⟨[DISK_LIGHT, DISK_LIGHT, DISK_DARK, DISK_DARK]⟩ : disk_state).total_count : Int) →
        ∃ res, ∀ fuel, 2 ≤ fuel →
          lawn_loop fuel ⟨[DISK_LIGHT, DISK_LIGHT, DISK_DARK, DISK_DARK]⟩ 0 z 0
            = Outcome.done res) ∧
      (∃ res, ∀ fuel, 2 ≤ fuel →
        lawn_loop fuel ⟨[DISK_LIGHT, DISK_LIGHT, DISK_DARK, DISK_DARK]⟩ 0
          ((⟨[DISK_LIGHT, DISK_LIGHT, DISK_DARK, DISK_DARK]⟩ : disk_state).total_count : Int) 0
          = Outcome.done res) ∧
      (∃ res, ∀ fuel, 2 ≤ fuel →
        lawn_loop fuel ⟨[DISK_LIGHT, DISK_LIGHT, DISK_DARK, DISK_DARK]⟩ 0
          (to_int
            ((⟨[DISK_LIGHT, DISK_LIGHT, DISK_DARK, DISK_DARK]⟩ : disk_state).total_count : Int))
          0 = Outcome.done res) ∧
      sort_lawnmower 2 ⟨[DISK_LIGHT, DISK_LIGHT, DISK_DARK, DISK_DARK]⟩ ≠ Outcome.diverge ∧
      (∀ fuel, 2 ≤ fuel →
        sort_lawnmower fuel ⟨[DISK_LIGHT, DISK_LIGHT, DISK_DARK, DISK_DARK]⟩
          = sort_lawnmower 2 ⟨[DISK_LIGHT, DISK_LIGHT, DISK_DARK, DISK_DARK]⟩) :=
  ⟨by decide, by decide, lawnmower_terminates _ 2 (by decide) (by decide)⟩

/-- C20: the body of each sorter loop fails exactly when `i + 1` is not an index of the
row, and on every row of `N ≥ 2` disks on which `is_alternating()` is true neither the
loops of `sort_left_to_right` nor, with any fuel, the loop of `sort_lawnmower` fail,
whatever value at most `N` the variable `sizeOfVector` starts with (the length itself, or
the `int` the code narrows it to): every `get` and `swap` they make has `i + 1 < N`. -/
theorem sorters_index_safe (r : disk_state) (h : 2 ≤ r.total_count)
    (ha : r.is_alternating = some true) :
    (∀ j c n, ltr_body j (c, n) = none ↔ c.total_count ≤ j + 1) ∧
      (∀ j c n chk, lawn_body j (c, n, chk) = none ↔ c.total_count ≤ j + 1) ∧
      (∀ z : Int, z ≤ (r.total_count : Int) →
        (∀ n, ∃ st, ltr_outer z n (r, 0) = some st) ∧
          ∀ fuel, lawn_loop fuel r 0 z 0 ≠ Outcome.abort) ∧
      (∃ st, ltr_outer (r.total_count : Int) ((r.total_count : Int) - 1).toNat (r, 0)
        = some st) ∧
      (∀ fuel, lawn_loop fuel r 0 (r.total_count : Int) 0 ≠ Outcome.abort) ∧
      (∃ st, ltr_outer (to_int (r.total_count : Int))
        (to_int (r.total_count : Int) - 1).toNat (r, 0) = some st) ∧
      (∀ fuel, lawn_loop fuel r 0 (to_int (r.total_count : Int)) 0 ≠ Outcome.abort) ∧
      (∃ res, sort_left_to_right r = some res) ∧
      (∀ fuel, sort_lawnmower fuel r ≠ Outcome.abort) := by
  obtain ⟨cs⟩ := r
  simp only [disk_state.total_count] at h
  have hgen : ∀ z : Int, z ≤ (cs.length : Int) →
      (∀ n, ∃ st, ltr_outer z n (⟨cs⟩, 0) = some st) ∧
        ∀ fuel, lawn_loop fuel ⟨cs⟩ 0 z 0 ≠ Outcome.abort := by
    intro z hz
    refine ⟨fun n => ?_, fun fuel => lawn_loop_ne_abort fuel cs z hz⟩
    obtain ⟨cs1, cnt1, ho, _⟩ := ltr_outer_some n z cs 0 hz
    exact ⟨_, ho⟩
  have hz := to_int_length_le cs.length
  obtain ⟨⟨cs1, cnt1⟩, ho⟩ := (hgen _ hz).1 (to_int (cs.length : Int) - 1).toNat
  refine ⟨ltr_body_none_iff, lawn_body_none_iff, hgen,
    (hgen _ (Int.le_refl _)).1 _, (hgen _ (Int.le_refl _)).2, ⟨_, ho⟩, (hgen _ hz).2,
    ⟨⟨cs1, to_unsigned cnt1⟩, ?_⟩, fun fuel => ?_⟩
  · rw [sort_left_to_right_of_alt _ ha]
    simp only [disk_state.total_count]
    rw [ho]
  · rw [sort_lawnmower_of_alt fuel _ ha]
    simp only [disk_state.total_count]
    have hna := (hgen _ hz).2 fuel
    cases hq : lawn_loop fuel ⟨cs⟩ 0 (to_int (cs.length : Int)) 0 with
    | done st => simp
    | abort => exact absurd hq hna
    | diverge => simp

/-! ## Passes that stay clear of the end of the row -/

theorem pstep_append (i : Nat) (xs t : List disk_color) (h : i + 1 < xs.length) :
    pstep i (xs ++ t) = ((pstep i xs).1 ++ t, (pstep i xs).2) := by
  have h0 : i < xs.length := by omega
  unfold pstep
  rw [List.getElem?_append_left h0, List.getElem?_append_left h,
    List.getElem?_eq_getElem h0, List.getElem?_eq_getElem h]
  simp only []
  split_ifs
  · rw [List.set_append_left _ _ h0, List.set_append_left _ _ (by simpa using h)]
  · rfl

theorem pfwd_append (n i : Nat) (xs t : List disk_color) (h : i + n < xs.length) :
    pfwd n i (xs ++ t) = ((pfwd n i xs).1 ++ t, (pfwd n i xs).2) := by
  induction n generalizing i xs with
  | zero => rfl
  | succ n ih =>
    simp only [pfwd]
    rw [pstep_append i xs t (by omega)]
    simp only []
    rw [ih (i + 1) _ (by rw [pstep_length]; omega)]

theorem pbwd_append (n lo : Nat) (xs t : List disk_color) (h : lo + n < xs.length) :
    pbwd n lo (xs ++ t) = ((pbwd n lo xs).1 ++ t, (pbwd n lo xs).2) := by
  induction n generalizing xs with
  | zero => rfl
  | succ n ih =>
    simp only [pbwd]
    rw [pstep_append (lo + n) xs t (by omega)]
    simp only []
    rw [ih _ (by rw [pstep_length]; omega)]

/-- The outer loop of `sort_left_to_right` on a row `D^a (L D)^b L^c` with `c ≥ 1` that is
followed by further disks, when `sizeOfVector` is the length of the mixed row or one more:
the disks that follow are never looked at, and the rest is sorted as in
`ltr_outer_mixed`. -/
theorem ltr_outer_mixed_tail (n a b c cnt N : Nat) (t : List disk_color)
    (hN1 : a + 2 * b + c ≤ N) (hN2 : N ≤ a + 2 * b + c + 1) (hc : 1 ≤ c) (hn : b ≤ n) :
    ltr_outer (N : Int) n (⟨mixed_row a b c ++ t⟩, cnt)
      = some (⟨mixed_row (a + b) 0 (c + b) ++ t⟩, cnt + tri b) := by
  have e : ((N : Int) - 2).toNat = N - 2 := by omega
  induction n generalizing a b c cnt with
  | zero =>
    obtain rfl : b = 0 := by omega
    rfl
  | succ n ih =>
    simp only [ltr_outer, e]
    rw [ltr_inner_eq _ _ _ _ (by simp; omega), pfwd_append _ _ _ _ (by simp; omega)]
    match b, hN1, hN2, hn with
    | 0, hN1, hN2, _ =>
      rw [pfwd_sorted a c 0 (N - 2) (by omega)]
      simp only []
      exact ih a 0 c (cnt + 0) hN1 hN2 hc (Nat.zero_le _)
    | b + 1, hN1, hN2, hn =>
      rw [pfwd_mixed a b c 0 (N - 2) (Nat.zero_le _) (by omega) (by omega)]
      simp only []
      rw [ih (a + 1) b (c + 1) (cnt + (b + 1)) (by omega) (by omega) (by omega) (by omega)]
      simp only [tri, Option.some.injEq, Prod.mk.injEq, disk_state.mk.injEq]
      constructor
      · congr 2 <;> omega
      · omega

/-- The `do … while` loop of `sort_lawnmower` on a row `D^a (L D)^b L^c` with `c ≥ 1` that
is followed by further disks which the window does not reach. -/
theorem lawn_loop_mixed_tail (fuel a b c cnt s : Nat) (z : Int) (t : List disk_color)
    (hs : s ≤ a) (hc : 1 ≤ c) (hz1 : ((a + 2 * b + 1 : Nat) : Int) ≤ z)
    (hz2 : z ≤ ((a + 2 * b + c + 1 : Nat) : Int)) (hf : b < 2 * fuel) :
    lawn_loop fuel ⟨mixed_row a b c ++ t⟩ cnt z s
      = Outcome.done (⟨mixed_row (a + b) 0 (c + b) ++ t⟩, cnt + tri b) := by
  induction fuel generalizing a b c cnt s z with
  | zero => omega
  | succ fuel ih =>
    obtain ⟨zn, rfl⟩ : ∃ zn : Nat, z = (zn : Int) := ⟨z.toNat, by omega⟩
    have e1 : ((zn : Int) - 2 - (s : Int)).toNat = zn - 2 - s := by omega
    have e2 : ((zn : Int) - 1 - 1).toNat = zn - 2 := by omega
    rw [lawn_loop_succ, e1, e2, lawn_forward_eq _ _ _ _ _ (by simp; omega),
      pfwd_append _ _ _ _ (by simp; omega)]
    match b, hz1, hz2, hf with
    | 0, hz1, hz2, _ =>
      rw [pfwd_sorted a c s (zn - 2 - s) (by omega)]
      simp [tri]
    | 1, hz1, hz2, _ =>
      rw [pfwd_mixed a 0 c s (zn - 2 - s) hs (by omega) (by omega)]
      simp only [Bool.false_or, Nat.zero_lt_succ, decide_True, Bool.not_true,
        Bool.false_eq_true, if_false]
      rw [lawn_backward_eq _ _ _ _ (by simp; omega), pbwd_append _ _ _ _ (by simp; omega),
        pbwd_sorted (a + 1) (c + 1) 0 (zn - 2) (by omega)]
      simp [tri]
    | b + 2, hz1, hz2, hf =>
      rw [pfwd_mixed a (b + 1) c s (zn - 2 - s) hs (by omega) (by omega)]
      simp only [Bool.false_or, Nat.zero_lt_succ, decide_True, Bool.not_true,
        Bool.false_eq_true, if_false]
      rw [lawn_backward_eq _ _ _ _ (by simp; omega), pbwd_append _ _ _ _ (by simp; omega),
        pbwd_mixed (a + 1) b (c + 1) (zn - 2) (by omega) (by omega)]
      simp only [Bool.false_or, Nat.zero_lt_succ, decide_True, if_true]
      rw [ih (a + 1 + 1) b (c + 1 + 1) _ (s + 1) _ (by omega) (by omega)
        (by push_cast; omega) (by push_cast; omega) (by omega)]
      simp only [tri, Outcome.done.injEq, Prod.mk.injEq, disk_state.mk.injEq]
      constructor
      · congr 2 <;> omega
      · omega

/-! ## The rows that `is_alternating` accepts -/

theorem other_other (c : disk_color) : c.other.other = c := by
  cases c <;> rfl

theorem alt_list_dark_even (b : Nat) : alt_list DISK_DARK (2 * b) = alt_dl b := by
  induction b with
  | zero => rfl
  | succ b ih =>
    have e : 2 * (b + 1) = 2 * b + 1 + 1 := by omega
    rw [e]
    simp only [alt_list, disk_color.other, alt_dl, ih]

theorem alt_list_light_even (b : Nat) : alt_list DISK_LIGHT (2 * b) = alt_ld b := by
  induction b with
  | zero => rfl
  | succ b ih =>
    have e : 2 * (b + 1) = 2 * b + 1 + 1 := by omega
    rw [e]
    simp only [alt_list, disk_color.other, alt_ld, ih]

theorem alt_list_dark_odd (b : Nat) : alt_list DISK_DARK (2 * b + 1) = alt_dl b ++ [DISK_DARK] := by
  induction b with
  | zero => rfl
  | succ b ih =>
    have e : 2 * (b + 1) + 1 = 2 * b + 1 + 1 + 1 := by omega
    rw [e]
    simp only [alt_list, disk_color.other, alt_dl, List.cons_append] at ih ⊢
    rw [ih]

theorem alt_list_light_odd (b : Nat) :
    alt_list DISK_LIGHT (2 * b + 1) = alt_ld b ++ [DISK_LIGHT] := by
  induction b with
  | zero => rfl
  | succ b ih =>
    have e : 2 * (b + 1) + 1 = 2 * b + 1 + 1 + 1 := by omega
    rw [e]
    simp only [alt_list, disk_color.other, alt_ld, List.cons_append] at ih ⊢
    rw [ih]

theorem alt_ld_snoc (n : Nat) : alt_ld (n + 1) = alt_ld n ++ [DISK_LIGHT, DISK_DARK] := by
  induction n with
  | zero => rfl
  | succ n ih =>
    calc alt_ld (n + 1 + 1) = DISK_LIGHT :: DISK_DARK :: alt_ld (n + 1) := rfl
      _ = DISK_LIGHT :: DISK_DARK :: (alt_ld n ++ [DISK_LIGHT, DISK_DARK]) := by rw [ih]
      _ = alt_ld (n + 1) ++ [DISK_LIGHT, DISK_DARK] := rfl

/-- A row in which every two neighbours differ is determined by its first disk and its
length. -/
theorem eq_alt_list (x : disk_color) (rest : List disk_color)
    (h : ∀ i, i + 1 < (x :: rest).length → (x :: rest)[i]? ≠ (x :: rest)[i + 1]?) :
    x :: rest = alt_list x (rest.length + 1) := by
  induction rest generalizing x with
  | nil => rfl
  | cons y rest ih =>
    have h0 := h 0 (by simp)
    have hy : y = x.other := by
      revert h0
      cases x <;> cases y <;> simp [disk_color.other]
    have hr := ih y (fun i hi => by
      have := h (i + 1) (by simpa using hi)
      simpa using this)
    subst hy
    show x :: (x.other :: rest) = alt_list x (rest.length + 1 + 1)
    rw [hr]
    rfl

theorem neighbours_of_period (cs : List disk_color)
    (hp : ∀ j, j + 2 < cs.length → cs[j]? = cs[j + 2]?) (hne : cs[0]? ≠ cs[1]?) :
    ∀ i, i + 1 < cs.length → cs[i]? ≠ cs[i + 1]? := by
  intro i
  induction i with
  | zero => exact fun _ => hne
  | succ i ih =>
    intro hi hc
    exact ih (by omega) ((hp i hi).trans hc.symm)

theorem is_alternating_short (cs : List disk_color) (h : cs.length < 2) :
    disk_state.is_alternating ⟨cs⟩ = none := by
  match cs, h with
  | [], _ => rfl
  | [x], _ => rfl

/-- Every row of at least two disks in which every two neighbours differ is a row
`D^a (L D)^b L`, possibly followed by one more disk. -/
theorem alternating_shape (cs : List disk_color) (h2 : 2 ≤ cs.length)
    (hn : ∀ i, i + 1 < cs.length → cs[i]? ≠ cs[i + 1]?) :
    ∃ a b t, List.length t ≤ 1 ∧ cs = mixed_row a b 1 ++ t := by
  match cs, h2, hn with
  | x :: rest, h2, hn =>
    have hx := eq_alt_list x rest hn
    have hm : ∃ m, 1 ≤ m ∧ (rest.length + 1 = 2 * m ∨ rest.length + 1 = 2 * m + 1) :=
      ⟨(rest.length + 1) / 2, by simp at h2; omega, by omega⟩
    obtain ⟨m, hm1, hm2⟩ := hm
    obtain ⟨b, rfl⟩ : ∃ b, m = b + 1 := ⟨m - 1, by omega⟩
    have hml : mixed_row 0 (b + 1) 1 = alt_ld (b + 1) ++ [DISK_LIGHT] := by
      simp [mixed_row]
    have hml0 : mixed_row 0 b 1 = alt_ld b ++ [DISK_LIGHT] := by
      simp [mixed_row]
    rcases hm2 with he | he
    · rw [he] at hx
      cases x with
      | DISK_DARK =>
        rw [alt_list_dark_even, alt_dl_eq_mixed] at hx
        exact ⟨1, b, [], by simp, by rw [hx]; simp⟩
      | DISK_LIGHT =>
        rw [alt_list_light_even, alt_ld_snoc] at hx
        exact ⟨0, b, [DISK_DARK], by simp, by rw [hx, hml0]; simp⟩
    · rw [he] at hx
      cases x with
      | DISK_DARK =>
        rw [alt_list_dark_odd, alt_dl_eq_mixed] at hx
        exact ⟨1, b, [DISK_DARK], by simp, hx⟩
      | DISK_LIGHT =>
        rw [alt_list_light_odd] at hx
        exact ⟨0, b + 1, [], by simp, by rw [hx, hml]; simp⟩

/-- On a row on which `is_alternating()` is true the disks that the `int` length covers,
when there are `m ≥ 2` of them, are a row `D^a (L D)^b L` followed by at most one more
disk; what follows them in the row is arbitrary. -/
theorem alternating_prefix_shape (cs : List disk_color) (m : Nat) (h2 : 2 ≤ m)
    (hm : to_int (cs.length : Int) = (m : Int))
    (ha : disk_state.is_alternating ⟨cs⟩ = some true) :
    ∃ a b t, a + 2 * b + 1 ≤ m ∧ m ≤ a + 2 * b + 2 ∧ cs = mixed_row a b 1 ++ t := by
  have hle := to_int_le cs.length (by omega)
  have hml : m ≤ cs.length := by omega
  obtain ⟨bv, hb, hiff⟩ := is_alternating_spec_int cs (by omega)
  rw [ha] at hb
  cases hb
  obtain ⟨hp, hne⟩ := hiff.mp rfl
  rw [hm] at hp
  have hlen : (cs.take m).length = m := by
    rw [List.length_take]
    omega
  have hget : ∀ j, j < m → (cs.take m)[j]? = cs[j]? := fun j hj =>
    List.getElem?_take_of_lt hj
  have hn := neighbours_of_period (cs.take m)
    (fun j hj => by
      rw [hlen] at hj
      rw [hget j (by omega), hget (j + 2) hj]
      exact hp j (by omega))
    (by rw [hget 0 (by omega), hget 1 (by omega)]; exact hne)
  obtain ⟨a, b, t0, ht0, hs⟩ := alternating_shape (cs.take m) (by omega) hn
  have hl2 : m = a + 2 * b + 1 + t0.length := by
    rw [← hlen, hs]
    simp
  refine ⟨a, b, t0 ++ cs.drop m, by omega, by omega, ?_⟩
  rw [← List.append_assoc, ← hs, List.take_append_drop]

/-- Both sorters on a row `D^a (L D)^b L` followed by further disks, when the `int` length
is the length of the mixed row or one more. -/
theorem sorters_on_shape (a b m : Nat) (t : List disk_color)
    (hm : to_int ((mixed_row a b 1 ++ t).length : Int) = (m : Int))
    (hm1 : a + 2 * b + 1 ≤ m) (hm2 : m ≤ a + 2 * b + 2)
    (ha : disk_state.is_alternating ⟨mixed_row a b 1 ++ t⟩ = some true) :
    sort_left_to_right ⟨mixed_row a b 1 ++ t⟩
        = some ⟨⟨mixed_row (a + b) 0 (1 + b) ++ t⟩, to_unsigned (tri b)⟩ ∧
      ∀ fuel, (mixed_row a b 1 ++ t).length ≤ 2 * fuel →
        sort_lawnmower fuel ⟨mixed_row a b 1 ++ t⟩
          = Outcome.done ⟨⟨mixed_row (a + b) 0 (1 + b) ++ t⟩, to_unsigned (tri b)⟩ := by
  have hle := to_int_le (mixed_row a b 1 ++ t).length (by omega)
  have e : ((m : Int) - 1).toNat = m - 1 := by omega
  constructor
  · rw [sort_left_to_right_of_alt _ ha]
    simp only [disk_state.total_count]
    rw [hm, e, ltr_outer_mixed_tail _ a b 1 0 _ t hm1 (by omega) (Nat.le_refl _) (by omega)]
    simp
  · intro fuel hf
    rw [sort_lawnmower_of_alt _ _ ha]
    simp only [disk_state.total_count]
    rw [hm, lawn_loop_mixed_tail fuel a b 1 0 0 _ t (Nat.zero_le _) (Nat.le_refl _)
      (by push_cast; omega) (by push_cast; omega) (by omega)]
    simp

/-- C14: on every row on which `is_alternating()` is true, `sort_left_to_right` and
`sort_lawnmower` (once its fuel covers half the row) return the same final row and the
same swap count. -/
theorem sorters_agree (r : disk_state) (ha : r.is_alternating = some true) :
    ∃ res, sort_left_to_right r = some res ∧
      ∀ fuel, r.total_count ≤ 2 * fuel → sort_lawnmower fuel r = Outcome.done res := by
  obtain ⟨cs⟩ := r
  have h2 : 2 ≤ cs.length := by
    by_contra hlt
    rw [is_alternating_short cs (by omega)] at ha
    cases ha
  by_cases hz : to_int (cs.length : Int) ≤ 2
  · obtain ⟨h1, h3⟩ := sorters_on_small ⟨cs⟩ hz ha
    exact ⟨_, h1, fun fuel hf => h3 fuel (by simp only [disk_state.total_count] at hf; omega)⟩
  · obtain ⟨m, hm⟩ : ∃ m : Nat, to_int (cs.length : Int) = (m : Int) :=
      ⟨(to_int (cs.length : Int)).toNat, by omega⟩
    obtain ⟨a, b, t, hm1, hm2, rfl⟩ := alternating_prefix_shape cs m (by omega) hm ha
    obtain ⟨h1, h3⟩ := sorters_on_shape a b m t hm hm1 hm2 ha
    exact ⟨_, h1, fun fuel hf => h3 fuel hf⟩

theorem sorters_agree_witness :
    (⟨[DISK_LIGHT, DISK_DARK, DISK_LIGHT, DISK_DARK]⟩ : disk_state).is_alternating = some true ∧
      ∃ res, sort_left_to_right ⟨[DISK_LIGHT, DISK_DARK, DISK_LIGHT, DISK_DARK]⟩ = some res ∧
        ∀ fuel,
          (⟨[DISK_LIGHT, DISK_DARK, DISK_LIGHT, DISK_DARK]⟩ : disk_state).total_count
              ≤ 2 * fuel →
            sort_lawnmower fuel ⟨[DISK_LIGHT, DISK_DARK, DISK_LIGHT, DISK_DARK]⟩
              = Outcome.done res :=
  ⟨by decide, sorters_agree _ (by decide)⟩

theorem sorters_index_safe_witness :
    2 ≤ (⟨[DISK_LIGHT, DISK_DARK, DISK_LIGHT, DISK_DARK]⟩ : disk_state).total_count ∧
      (⟨[DISK_LIGHT, DISK_DARK, DISK_LIGHT, DISK_DARK]⟩ : disk_state).is_alternating
        = some true ∧
      (∀ j c n, ltr_body j (c, n) = none ↔ c.total_count ≤ j + 1) ∧
      (∀ j c n chk, lawn_body j (c, n, chk) = none ↔ c.total_count ≤ j + 1) ∧
      (∀ z : Int,
        z ≤ ((⟨[DISK_LIGHT, DISK_DARK, DISK_LIGHT, DISK_DARK]⟩ : disk_state).total_count : Int) →
        (∀ n, ∃ st,
          ltr_outer z n (⟨[DISK_LIGHT, DISK_DARK, DISK_LIGHT, DISK_DARK]⟩, 0) = some st) ∧
          ∀ fuel, lawn_loop fuel ⟨[DISK_LIGHT, DISK_DARK, DISK_LIGHT, DISK_DARK]⟩ 0 z 0
            ≠ Outcome.abort) ∧
      (∃ st, ltr_outer
          ((⟨[DISK_LIGHT, DISK_DARK, DISK_LIGHT, DISK_DARK]⟩ : disk_state).total_count : Int)
          (((⟨[DISK_LIGHT, DISK_DARK, DISK_LIGHT, DISK_DARK]⟩ : disk_state).total_count : Int)
            - 1).toNat
          (⟨[DISK_LIGHT, DISK_DARK, DISK_LIGHT, DISK_DARK]⟩, 0) = some st) ∧
      (∀ fuel, lawn_loop fuel ⟨[DISK_LIGHT, DISK_DARK, DISK_LIGHT, DISK_DARK]⟩ 0
          ((⟨[DISK_LIGHT, DISK_DARK, DISK_LIGHT, DISK_DARK]⟩ : disk_state).total_count : Int) 0
        ≠ Outcome.abort) ∧
      (∃ st, ltr_outer
          (to_int
            ((⟨[DISK_LIGHT, DISK_DARK, DISK_LIGHT, DISK_DARK]⟩ : disk_state).total_count : Int))
          (to_int
            ((⟨[DISK_LIGHT, DISK_DARK, DISK_LIGHT, DISK_DARK]⟩ : disk_state).total_count : Int)
            - 1).toNat
          (⟨[DISK_LIGHT, DISK_DARK, DISK_LIGHT, DISK_DARK]⟩, 0) = some st) ∧
      (∀ fuel, lawn_loop fuel ⟨[DISK_LIGHT, DISK_DARK, DISK_LIGHT, DISK_DARK]⟩ 0
          (to_int
            ((⟨[DISK_LIGHT, DISK_DARK, DISK_LIGHT, DISK_DARK]⟩ : disk_state).total_count : Int))
          0 ≠ Outcome.abort) ∧
      (∃ res, sort_left_to_right ⟨[DISK_LIGHT, DISK_DARK, DISK_LIGHT, DISK_DARK]⟩
        = some res) ∧
      (∀ fuel, sort_lawnmower fuel ⟨[DISK_LIGHT, DISK_DARK, DISK_LIGHT, DISK_DARK]⟩
        ≠ Outcome.abort) :=
  ⟨by decide, by decide, sorters_index_safe _ (by decide) (by decide)⟩

/-! ## Sorting a sorted row -/

/-- C12 (fails as stated): `is_sorted()` is true on the row `D D L L`, yet
`sort_left_to_right` returns no result on it and `sort_lawnmower` aborts on it, whatever
the fuel: both assert `is_alternating()` first. -/
theorem sorters_reject_sorted_row :
    (⟨[DISK_DARK, DISK_DARK, DISK_LIGHT, DISK_LIGHT]⟩ : disk_state).is_sorted = some true ∧
      sort_left_to_right ⟨[DISK_DARK, DISK_DARK, DISK_LIGHT, DISK_LIGHT]⟩ = none ∧
      (∀ fuel, sort_lawnmower fuel ⟨[DISK_DARK, DISK_DARK, DISK_LIGHT, DISK_LIGHT]⟩
        = Outcome.abort) :=
  ⟨by decide, by decide, fun fuel => sort_lawnmower_of_not_alt fuel _ (by decide)⟩

/-- On a row on which `is_sorted()` and `is_alternating()` are both true the `int` length
is 2: such a row begins `D L`, and its length is 2 or wraps to 2. -/
theorem sorted_and_alternating (cs : List disk_color)
    (hs : disk_state.is_sorted ⟨cs⟩ = some true)
    (ha : disk_state.is_alternating ⟨cs⟩ = some true) : to_int (cs.length : Int) = 2 := by
  have h2 : 2 ≤ cs.length := by
    by_contra hlt
    rw [is_alternating_short cs (by omega)] at ha
    cases ha
  have hz2 : 2 ≤ to_int (cs.length : Int) := by
    by_contra hlt
    rw [is_sorted_of_small cs (by omega)] at hs
    cases hs
  obtain ⟨m, hm⟩ : ∃ m : Nat, to_int (cs.length : Int) = (m : Int) :=
    ⟨(to_int (cs.length : Int)).toNat, by omega⟩
  obtain ⟨b1, hb1, hiff1⟩ := is_alternating_spec_int cs h2
  rw [ha] at hb1
  cases hb1
  obtain ⟨hp, hne⟩ := hiff1.mp rfl
  rw [hm] at hp
  obtain ⟨b2, hb2, hiff2⟩ := is_sorted_spec_int cs m hm (by omega)
  rw [hs] at hb2
  cases hb2
  obtain ⟨hd, hl⟩ := hiff2.mp rfl
  have h0 := hd 0 (by omega)
  by_cases h4 : 4 ≤ m
  · exact absurd (h0.trans (hd 1 (by omega)).symm) hne
  · by_cases h3 : m = 3
    · have hc := hp 0 (by omega)
      rw [h0, hl 2 (by omega) (by omega)] at hc
      cases hc
    · omega

/-- C12 (amended): on every row on which `is_sorted()` is true, if `is_alternating()` is
true as well then `sort_left_to_right` and `sort_lawnmower` both return the row unchanged
with swap count 0, and if `is_alternating()` is not true then both sorters fail at their
assertion and return nothing. -/
theorem sort_sorted_row (r : disk_state) (hs : r.is_sorted = some true) :
    (r.is_alternating = some true →
        sort_left_to_right r = some ⟨r, 0⟩ ∧
          ∀ fuel, 1 ≤ fuel → sort_lawnmower fuel r = Outcome.done ⟨r, 0⟩) ∧
      (r.is_alternating ≠ some true →
        sort_left_to_right r = none ∧ ∀ fuel, sort_lawnmower fuel r = Outcome.abort) := by
  refine ⟨fun ha => ?_, fun hna =>
    ⟨sort_left_to_right_of_not_alt r hna, fun fuel => sort_lawnmower_of_not_alt fuel r hna⟩⟩
  obtain ⟨cs⟩ := r
  have hz := sorted_and_alternating cs hs ha
  exact sorters_on_small ⟨cs⟩ (by simp only [disk_state.total_count]; omega) ha

theorem sort_sorted_row_witness :
    (⟨[DISK_DARK, DISK_LIGHT]⟩ : disk_state).is_sorted = some true ∧
      ((⟨[DISK_DARK, DISK_LIGHT]⟩ : disk_state).is_alternating = some true →
        sort_left_to_right ⟨[DISK_DARK, DISK_LIGHT]⟩ = some ⟨⟨[DISK_DARK, DISK_LIGHT]⟩, 0⟩ ∧
          ∀ fuel, 1 ≤ fuel →
            sort_lawnmower fuel ⟨[DISK_DARK, DISK_LIGHT]⟩
              = Outcome.done ⟨⟨[DISK_DARK, DISK_LIGHT]⟩, 0⟩) ∧
      ((⟨[DISK_DARK, DISK_LIGHT]⟩ : disk_state).is_alternating ≠ some true →
        sort_left_to_right ⟨[DISK_DARK, DISK_LIGHT]⟩ = none ∧
          ∀ fuel, sort_lawnmower fuel ⟨[DISK_DARK, DISK_LIGHT]⟩ = Outcome.abort) :=
  ⟨by decide, sort_sorted_row _ (by decide)⟩

/-! ## The left-to-right sorter and the scan of the specification -/

theorem spec_scan_step_eq (i : Nat) (cs : List disk_color) (cnt : Nat) :
    spec_scan_step i (cs, cnt) = ((pstep i cs).1, cnt + (pstep i cs).2) := by
  unfold spec_scan_step pstep
  cases h1 : cs[i]? with
  | none => rfl
  | some a =>
    cases h2 : cs[i + 1]? with
    | none => cases a <;> rfl
    | some b => cases a <;> cases b <;> simp [disk_color.val]

theorem spec_scan_eq (n i : Nat) (cs : List disk_color) (cnt : Nat) :
    spec_scan n i (cs, cnt) = ((pfwd n i cs).1, cnt + (pfwd n i cs).2) := by
  induction n generalizing i cs cnt with
  | zero => rfl
  | succ n ih =>
    simp only [spec_scan, pfwd]
    rw [spec_scan_step_eq, ih, Nat.add_assoc]

theorem spec_scans_mixed (n a b c cnt N : Nat) (hN : N = a + 2 * b + c) (hc : 1 ≤ c)
    (hn : b ≤ n) :
    spec_scans N n (mixed_row a b c, cnt) = (mixed_row (a + b) 0 (c + b), cnt + tri b) := by
  induction n generalizing a b c cnt with
  | zero =>
    obtain rfl : b = 0 := by omega
    rfl
  | succ n ih =>
    simp only [spec_scans]
    rw [spec_scan_eq]
    match b, hN, hn with
    | 0, hN, _ =>
      rw [pfwd_sorted a c 0 (N - 1) (by omega)]
      exact ih a 0 c (cnt + 0) hN hc (Nat.zero_le _)
    | b + 1, hN, hn =>
      rw [pfwd_mixed a b c 0 (N - 1) (Nat.zero_le _) (by omega) (by omega)]
      simp only []
      rw [ih (a + 1) b (c + 1) (cnt + (b + 1)) (by omega) (by omega) (by omega)]
      simp only [tri, Prod.mk.injEq]
      constructor
      · congr 1 <;> omega
      · omega

/-- On the constructed row of `k` lights, `k < 2^30`, the left-to-right sorter returns what
the scan of the specification returns, the count taken as an `unsigned`: the last disk is
light, so the pair the code leaves out is never out of order. -/
theorem sort_left_to_right_eq_spec_on_constructed (k : Nat) (hk : 1 ≤ k)
    (hb : k < 1073741824) :
    sort_left_to_right ⟨alt_dl k⟩
      = some ⟨⟨(spec_bubble (alt_dl k)).1⟩, (spec_bubble (alt_dl k)).2 % 4294967296⟩ := by
  obtain ⟨b, rfl⟩ : ∃ b, k = b + 1 := ⟨k - 1, by omega⟩
  have hs : spec_bubble (alt_dl (b + 1)) = (mixed_row (b + 1) 0 (b + 1), tri b) := by
    unfold spec_bubble
    rw [alt_dl_eq_mixed, spec_scans_mixed _ 1 b 1 0 (mixed_row 1 b 1).length (by simp)
      (Nat.le_refl _) (by simp; omega)]
    simp [Nat.add_comm]
  have ht := tri_pred (b + 1) hk
  simp only [Nat.add_sub_cancel] at ht
  rw [sort_left_to_right_alt_dl (b + 1) hk hb, hs, ht]
  simp

/-- C18 (fails on the code): on the row `L D`, on which `is_alternating()` is true, the
procedure of the specification (one scan over left index 0) swaps the two disks and counts
1 swap, while `sort_left_to_right` returns `L D` with 0 swaps: its inner loop runs over
`j < sizeOfVector - 2`, which leaves out the last pair. -/
theorem sort_left_to_right_skips_last_pair :
    (⟨[DISK_LIGHT, DISK_DARK]⟩ : disk_state).is_alternating = some true ∧
      spec_bubble [DISK_LIGHT, DISK_DARK] = ([DISK_DARK, DISK_LIGHT], 1) ∧
      sort_left_to_right ⟨[DISK_LIGHT, DISK_DARK]⟩
        = some ⟨⟨[DISK_LIGHT, DISK_DARK]⟩, 0⟩ :=
  ⟨by decide, by decide, by decide⟩
